import Mathlib

/-!
Verification development for the reStructuredText writer
(`sphinx_rst_builder/_writer.py`).

The Python translator `RstTranslator` is a docutils visitor: it keeps a stack
of output frames (`self.states` / `self.stateindent`), a stack of list
counters (`self.list_counter`), a section-nesting level, and an optional
active table matrix with column-span / row-span maps.  Below, each Python
method is translated to a Lean function of the same name acting on an
explicit `TState` record; the depth-first `walkabout` traversal of docutils
is embedded as a fuel-indexed interpreter over an inductive document tree
(fuel only bounds recursion depth; `RErr.fuelOut` is a distinguished result
that the theorems treat separately, and concrete runs are given enough fuel).

Conventions of the embedding:
* Python `self.states` grows at the tail (`states[-1]` is the top frame);
  here the HEAD of `TState.states` is the top frame, so Python's
  `states[0]` (the document root frame) is the LAST element here.
* Inside one frame, entries are kept in insertion order.
* Python string indices / lengths are code-point based, matching Lean's
  `String.length`.
* Fatal Python exceptions (IndexError, TypeError, NotImplementedError and
  popping an empty stack) are modelled by `Except.error` with a dedicated
  error code.
* `textwrap` word-wrapping is never exercised by the source: every call of
  `end_state` in `_writer.py` leaves `wrap` at its default `False`, so
  `end_state` below models exactly the `wrap=False` path (raw spans are
  split on existing line breaks).
-/

namespace RstBuilder

/-- Fatal outcomes of a render.  `stackUnderflow` models popping/peeking an
empty `states`/`stateindent` list (Python IndexError on the state stack),
`indexError` other out-of-range subscripts (section chars, `list_counter`,
table rows), `typeError` operations on `self.table` while it is `None`,
`nestedTable` the explicit `NotImplementedError('Nested tables are not
supported.')`, `notImplemented` the bare `NotImplementedError` for a
malformed reference, and `fuelOut` exhaustion of the interpreter's fuel
(never reached when enough fuel is supplied). -/
inductive RErr where
  | stackUnderflow
  | indexError
  | typeError
  | nestedTable
  | notImplemented
  | fuelOut
deriving Repr, DecidableEq

/-- One entry of an output frame: either a raw text span (Python appends
`(-1, text)`) or an already formatted block `(indent, lines)`. -/
inductive SEntry where
  | raw (text : String)
  | block (indent : Int) (lines : List String)
deriving Repr, DecidableEq

/-- Configuration consumed by the translator, with the values already
resolved the way `__init__` resolves them: `nl` from `text_newlines`
(default `"\n"` for `unix`), `sectionchars` from `text_sectionchars`
(Sphinx default is the seven characters of the class attribute),
`indent` from `rst_indent` falling back to `STDINDENT = 3`, and the
`rst_preserve_code_block_flags` flag. -/
structure Config where
  nl : String
  sectionchars : String
  indent : Int
  preserveCodeBlockFlags : Bool
deriving Repr, DecidableEq

/-- The default configuration: unix newlines, Sphinx's default
`text_sectionchars`, `STDINDENT = 3`, flags off. -/
def defaultConfig : Config :=
  { nl := "\n", sectionchars := "*=-~\"+`", indent := 3,
    preserveCodeBlockFlags := false }

/-- The mutable translator state.  Compared to the Python object, the unread
`table_colspec` list is omitted; `titleChar` models `self._title_char`
(unset before the first `visit_section`; its initial value is a placeholder
that is never observed because `depart_title` consults it only under a
section parent, whose `visit_section` has already stored a character). -/
structure TState where
  states : List (List SEntry)
  stateindent : List Int
  listCounter : List Int
  sectionlevel : Nat
  titleChar : Char
  table : Option (List (List String))
  tableCurRow : Nat
  tableColspan : List ((Nat × Nat) × Nat)
  tableRowspan : List ((Nat × Nat) × Nat)
  body : String
deriving Repr, DecidableEq

/-- The state built by `__init__`: one empty root frame with indent 0. -/
def initState : TState :=
  { states := [[]], stateindent := [0], listCounter := [], sectionlevel := 0,
    titleChar := '*', table := none, tableCurRow := 0, tableColspan := [],
    tableRowspan := [], body := "" }

/-! ### String helpers mirroring the Python primitives used by the writer -/

/-- The string `c * n` of Python. -/
def strRepeat (c : Char) (n : Nat) : String :=
  String.mk (List.replicate n c)

/-- The string `' ' * i` of Python (empty for a non-positive count). -/
def spacesI (i : Int) : String :=
  strRepeat ' ' i.toNat

/-- The Python slice `l[a:b]` for lists. -/
def pySlice (l : List Nat) (a b : Nat) : List Nat :=
  (l.drop a).take (b - a)

/-- Accumulator-based worker for `pySplitlines`. -/
def pySplitlinesAux : List Char → List Char → List String
  | [], acc => if acc.isEmpty then [] else [String.mk acc.reverse]
  | '\r' :: '\n' :: rest, acc => String.mk acc.reverse :: pySplitlinesAux rest []
  | '\r' :: rest, acc => String.mk acc.reverse :: pySplitlinesAux rest []
  | '\n' :: rest, acc => String.mk acc.reverse :: pySplitlinesAux rest []
  | c :: rest, acc => pySplitlinesAux rest (c :: acc)

/-- Python `str.splitlines()` restricted to the terminators that can occur
in this writer's buffers (`"\n"`, `"\r"`, `"\r\n"`): no entry is produced
for a trailing terminator, and an empty string yields the empty list. -/
def pySplitlines (s : String) : List String :=
  pySplitlinesAux s.data []

/-- Worker for `pyReplace`: one left-to-right pass deleting non-overlapping
occurrences of `pat`, exactly like CPython `str.replace(pat, '')`.  An empty
pattern leaves the text unchanged (as Python's replace-with-empty does).
The fuel argument only bounds the recursion; since every step consumes at
least one character, starting it at the list's length makes the
fuel-exhausted fallback unreachable. -/
def pyReplaceDelF (pat : List Char) : Nat → List Char → List Char
  | _, [] => []
  | 0, l => l
  | fuel + 1, c :: rest =>
    if pat ≠ [] ∧ pat.isPrefixOf (c :: rest) then
      pyReplaceDelF pat fuel ((c :: rest).drop pat.length)
    else
      c :: pyReplaceDelF pat fuel rest

/-- One-pass deletion of `pat`, with enough fuel. -/
def pyReplaceDel (pat l : List Char) : List Char :=
  pyReplaceDelF pat l.length l

/-- Python `s.replace(pat, '')`. -/
def pyReplace (s pat : String) : String :=
  String.mk (pyReplaceDel pat.data s.data)

/-- Substring test (used only to state properties, not by the writer). -/
def containsSub (pat : List Char) : List Char → Bool
  | [] => pat.isEmpty
  | c :: rest => pat.isPrefixOf (c :: rest) || containsSub pat rest

/-! ### The state-stack manager -/

/-- Method `add_text`: append a raw span to the top frame.  (With an empty
stack Python would raise; the traversal theorems show the stack is never
empty, so the fallback branch is inert.) -/
def add_text (t : String) (st : TState) : TState :=
  match st.states with
  | top :: rest => { st with states := (top ++ [SEntry.raw t]) :: rest }
  | [] => st

/-- Method `new_state`: push a fresh frame with the given indent. -/
def new_state (indent : Int) (st : TState) : TState :=
  { st with states := [] :: st.states, stateindent := indent :: st.stateindent }

/-- The inner `do_format` of `end_state` (`wrap=False` path): merge the
pending raw spans, split them on existing line breaks, and append the `end`
lines when that argument is truthy (Python `if end:`). -/
def do_format (indent : Int) (endOpt : Option (List String)) (toformat : List String) :
    List (Int × List String) :=
  match toformat with
  | [] => []
  | _ =>
    let res := pySplitlines (String.join toformat)
    let res := match endOpt with
      | some e => if e.isEmpty then res else res ++ e
      | none => res
    [(indent, res)]

/-- The content loop of `end_state`: raw spans are collected into
`toformat`; each preformatted block flushes the pending spans and is then
emitted at `indent + itemindent`. -/
def formatContent (indent : Int) (endOpt : Option (List String)) :
    List SEntry → List String → List (Int × List String)
  | [], toformat => do_format indent endOpt toformat
  | .raw t :: rest, toformat => formatContent indent endOpt rest (toformat ++ [t])
  | .block i lines :: rest, toformat =>
      do_format indent endOpt toformat
        ++ ((indent + i, lines) :: formatContent indent endOpt rest [])

/-- The `first` splice of `end_state`: prefix the first produced line with
`first`, re-homing it at relative indent `itemindent - indent`. -/
def spliceFirst (indent : Int) (first : Option String) :
    List (Int × List String) → List (Int × List String)
  | [] => []
  | (i0, item) :: rest =>
    match first with
    | none => (i0, item) :: rest
    | some f =>
      match item with
      | [] => (i0, item) :: rest
      | l0 :: ltl => (i0 - indent, [f ++ l0]) :: (i0, ltl) :: rest

/-- Method `end_state` (with `wrap=False`, as at every call site of the
source): pop the top frame and its indent, format it, splice `first`, and
extend the new top frame with the result. -/
def end_state (endOpt : Option (List String)) (first : Option String)
    (st : TState) : Except RErr TState :=
  match st.states, st.stateindent with
  | content :: below :: rest, indent :: irest =>
      let result := spliceFirst indent first (formatContent indent endOpt content [])
      .ok { st with
              states := (below ++ result.map (fun p => SEntry.block p.1 p.2)) :: rest,
              stateindent := irest }
  | _, _ => .error .stackUnderflow

/-! ### Section and title handling -/

/-- Method `visit_section`: `self._title_char = self.sectionchars[self.sectionlevel]`
followed by `self.sectionlevel += 1`.  The subscript has no modulus: a level
beyond the configured sequence raises IndexError. -/
def visit_section (cfg : Config) (st : TState) : Except RErr TState :=
  match cfg.sectionchars.data[st.sectionlevel]? with
  | some c => .ok { st with titleChar := c, sectionlevel := st.sectionlevel + 1 }
  | none => .error .indexError

/-- The title text recovered by `depart_title`: the concatenation of the raw
spans of the popped frame (entries with item-indent `-1`). -/
def titleText (content : List SEntry) : String :=
  String.join (content.filterMap fun e =>
    match e with
    | .raw t => some t
    | .block _ _ => none)

/-- Method `depart_title`: pop the title frame, choose the underline
character (the stored section character under a section parent, `'^'`
otherwise), and append the block `['', text, char * len(text), '']`. -/
def depart_title (parentIsSec : Bool) (st : TState) : Except RErr TState :=
  match st.states, st.stateindent with
  | content :: below :: rest, _ :: irest =>
      let char := if parentIsSec then st.titleChar else '^'
      let text := titleText content
      .ok { st with
              states := (below ++
                [SEntry.block 0 ["", text, strRepeat char text.length, ""]]) :: rest,
              stateindent := irest }
  | _, _ => .error .stackUnderflow

/-! ### Self-contained leaves -/

/-- Method `visit_image`, as the list of texts it adds before raising
SkipNode: with an `alt` attribute it first adds `'[image: <alt>]'`, and it
then unconditionally adds `'[image]'` (the gettext wrapper `_` is the
identity in the default locale). -/
def visit_image (alt : Option String) : List String :=
  (match alt with
   | some a => ["[image: " ++ a ++ "]"]
   | none => []) ++ ["[image]"]

/-! ### Literal blocks -/

/-- The marker lines added by `visit_literal_block`: `'::'` when the raw
source differs from the rendered text or the language is the default,
otherwise the `.. code-block:: <lang>` directive, plus the `:linenos:` flag
when configured to preserve it and the node enables line numbers. -/
def literal_block_marker (cfg : Config) (rawsource astext : String)
    (language : Option String) (linenos : Bool) : List String :=
  let lang := language.getD "default"
  if rawsource ≠ astext then ["::"]
  else if lang = "default" then ["::"]
  else
    [".. code-block:: " ++ lang] ++
      (if cfg.preserveCodeBlockFlags then
         (if linenos then ["\n   :linenos:"] else [])
       else [])

/-- Method `visit_literal_block`: add the marker lines, then push an
indented frame for the body. -/
def visit_literal_block (cfg : Config) (rawsource astext : String)
    (language : Option String) (linenos : Bool) (st : TState) : TState :=
  new_state cfg.indent
    ((literal_block_marker cfg rawsource astext language linenos).foldl
      (fun s t => add_text t s) st)

/-- Method `depart_literal_block`: `end_state(wrap=False)` (the body block
is not word-wrapped). -/
def depart_literal_block (st : TState) : Except RErr TState :=
  end_state (some [""]) none st

/-! ### Table cells -/

/-- The text stored by `depart_entry`: for each entry of the popped frame,
a raw span is joined character-by-character with the newline (Python's
`nl.join(x[1])` on a string) and a block joins its lines; the pieces are
then joined with the newline and every occurrence of the newline is deleted
in one pass of `str.replace`. -/
def entryText (nl : String) (content : List SEntry) : String :=
  let pieces := content.map fun e =>
    match e with
    | .raw t => String.intercalate nl (t.data.map fun c => String.mk [c])
    | .block _ lines => String.intercalate nl lines
  pyReplace (String.intercalate nl pieces) nl

/-- Method `depart_entry`: pop the cell frame, store its flattened text in
the current table row, and record the `morecols`/`morerows` spans, filling
the row with empty placeholder cells (for colspan) and the table with
single-cell placeholder rows (for rowspan). -/
def depart_entry (cfg : Config) (morecols morerows : Option Nat)
    (st : TState) : Except RErr TState :=
  match st.states, st.stateindent with
  | content :: srest, _ :: irest =>
      let text := entryText cfg.nl content
      let st := { st with states := srest, stateindent := irest }
      match st.table with
      | none => .error .typeError
      | some tbl =>
        if st.tableCurRow < tbl.length then
          let row0 := tbl.getD st.tableCurRow [] ++ [text]
          let (row1, colspan1) :=
            match morecols with
            | some mc =>
                (row0 ++ List.replicate mc "",
                 ((st.tableCurRow, row0.length - 1), 1 + mc) :: st.tableColspan)
            | none => (row0, st.tableColspan)
          let (tbl1, rowspan1) :=
            match morerows with
            | some mr =>
                (tbl.set st.tableCurRow row1 ++ List.replicate mr [""],
                 ((st.tableCurRow, row1.length - 1), 1 + mr) :: st.tableRowspan)
            | none => (tbl.set st.tableCurRow row1, st.tableRowspan)
          .ok { st with table := some tbl1, tableColspan := colspan1,
                        tableRowspan := rowspan1 }
        else .error .indexError
  | _, _ => .error .stackUnderflow

/-! ### The table drawing code of `depart_table` -/

/-- Lookup in a span map; the key column is compared as an integer because
`drawBorder` probes column `cell_counter - 1`, which can be `-1`.  Insertion
prepends, so the first match is the latest assignment, matching Python dict
overwrite semantics. -/
def spanLookupI (m : List ((Nat × Nat) × Nat)) (i : Nat) (x : Int) : Option Nat :=
  match m with
  | [] => none
  | ((a, b), v) :: rest =>
      if a = i ∧ (b : Int) = x then some v else spanLookupI rest i x

/-- Helper `isInRowspan`: scan rows `0..y-1` remembering the last rowspan
registered at column `x`, and test whether it still covers row `y`.  Both
coordinates are integers because Python happily evaluates it at `y = -1`
and `x = -1`. -/
def isInRowspan (y x : Int) (rowspan : List ((Nat × Nat) × Nat)) : Bool :=
  let acc := (List.range y.toNat).foldl
    (fun (acc : Nat × Nat) i =>
      match spanLookupI rowspan i x with
      | some v => (v, i)
      | none => acc) (0, 0)
  decide ((acc.1 : Int) - (y - (acc.2 : Int)) > 0)

/-- Helper `writeCell`: draw one cell's left border and interior.  Inside a
rowspan continuation the interior is blank fill of the column width;
otherwise the text is padded with `length - len(text) - 2` extra spaces
(no spaces when that is negative, as Python's empty `range`). -/
def writeCell (table : List (List String)) (y x : Nat) (length : Nat)
    (rowspan : List ((Nat × Nat) × Nat)) : String :=
  let text := (table.getD y []).getD x ""
  if isInRowspan (y : Int) (x : Int) rowspan then
    "|" ++ strRepeat ' ' length
  else
    "| " ++ text ++ " " ++ strRepeat ' ' (length - text.length - 2)

/-- Helper `writeColspanCell`: blank fill of width `length + colspan - 1`,
where `length` is the sum of the spanned columns' widths beyond the first. -/
def writeColspanCell (length colspanValue : Nat) : String :=
  strRepeat ' ' (length + colspanValue - 1)

/-- Helper `getMaxColWidth`: `2 +` the longest cell text at column `idx`,
rows without that column contributing nothing (0 when no row reaches it). -/
def getMaxColWidth (table : List (List String)) (idx : Nat) : Nat :=
  table.foldl
    (fun maxi row =>
      if idx < row.length then
        let cur := (row.getD idx "").length + 2
        if maxi < cur then cur else maxi
      else maxi) 0

/-- Helper `getMaxRowLen`: the length of the longest row. -/
def getMaxRowLen (table : List (List String)) : Nat :=
  table.foldl (fun maxi row => if maxi < row.length then row.length else maxi) 0

/-- Helper `getAllColLen`: the widths of all columns. -/
def getAllColLen (table : List (List String)) : List Nat :=
  (List.range (getMaxRowLen table)).map (getMaxColWidth table)

/-- Helper `getMaxRowWidth`: total drawn width, `sum of widths + column
count + 1` for the border bars (0 for an empty table, whose loop never
assigns). -/
def getMaxRowWidth (table : List (List String)) : Nat :=
  if table.isEmpty then 0
  else (getAllColLen table).sum + (getAllColLen table).length + 1

/-- Helper `drawBorder`: one horizontal border line; a column boundary
inside an active rowspan continuation is drawn blank instead of `+`/`-`.
The `colspan` parameter of the Python helper is unused there as well. -/
def drawBorder (nl : String) (table : List (List String)) (y : Int)
    (_colspan rowspan : List ((Nat × Nat) × Nat)) : String :=
  let col_widths := getAllColLen table
  let length := getMaxRowWidth table
  let step := fun (acc : Nat × Nat × String) (i : Nat) =>
    let (cwc, cc, out) := acc
    if isInRowspan y ((cc : Int) - 1) rowspan ∧ ¬ (i = cwc ∨ i = length - 1) then
      (cwc, cc, out ++ " ")
    else if i = cwc ∨ i = length - 1 then
      if cc ≠ getMaxRowLen table then
        (cwc + col_widths.getD cc 0 + 1, cc + 1, out ++ "+")
      else (cwc, cc, out ++ "+")
    else (cwc, cc, out ++ "-")
  let acc := (List.range length).foldl step (0, 0, "")
  acc.2.2 ++ nl

/-- The `while x < len(row)` loop of `drawTable`: draw the cell at `x`, and
after a colspan cell skip the spanned placeholder slots.  (The source's
span values are always `1 + morecols ≥ 1`; a hypothetical span value 0, on
which the Python loop would not terminate, advances by one column here.) -/
def drawRowCells (table : List (List String)) (y : Nat) (col_widths : List Nat)
    (colspan rowspan : List ((Nat × Nat) × Nat)) (rowLen : Nat) (x : Nat) : String :=
  if h : x < rowLen then
    let cell := writeCell table y x (col_widths.getD x 0) rowspan
    match spanLookupI colspan y (x : Int) with
    | some v =>
        cell ++ writeColspanCell (pySlice col_widths (x + 1) (x + v)).sum v
             ++ drawRowCells table y col_widths colspan rowspan rowLen (x + (v - 1) + 1)
    | none => cell ++ drawRowCells table y col_widths colspan rowspan rowLen (x + 1)
  else ""
termination_by rowLen - x
decreasing_by
  · omega
  · omega

/-- Helper `drawTable`: borders and cell rows interleaved, closed by a
bottom border drawn with empty span maps (the Python call site passes the
default arguments there). -/
def drawTable (nl : String) (table : List (List String))
    (colspan rowspan : List ((Nat × Nat) × Nat)) : String :=
  let col_widths := getAllColLen table
  let rows := (List.range table.length).foldl
    (fun out y =>
      let row := table.getD y []
      out ++ drawBorder nl table (y : Int) colspan rowspan
          ++ drawRowCells table y col_widths colspan rowspan row.length 0
          ++ "|" ++ nl) ""
  rows ++ drawBorder nl table ((getMaxRowLen table : Int) - 1) [] []

/-! ### Table open/close and rows -/

/-- Python truthiness of `self.table`: `None` and the empty list are falsy. -/
def pyTruthyTable : Option (List (List String)) → Bool
  | none => false
  | some t => !t.isEmpty

/-- Method `visit_table`: `if self.table: raise NotImplementedError(...)`,
otherwise push a frame and install a fresh empty matrix and span maps. -/
def visit_table (st : TState) : Except RErr TState :=
  if pyTruthyTable st.table then .error .nestedTable
  else
    .ok { new_state 0 st with
            table := some [], tableCurRow := 0,
            tableColspan := [], tableRowspan := [] }

/-- Method `depart_table`: draw the accumulated matrix, add the output text,
clear the table state, and close the frame with `end_state(wrap=False)`. -/
def depart_table (cfg : Config) (st : TState) : Except RErr TState :=
  match st.table with
  | none => .error .typeError
  | some tbl =>
      let out := drawTable cfg.nl tbl st.tableColspan st.tableRowspan
      let st := add_text out st
      end_state (some [""]) none
        { st with table := none, tableColspan := [], tableRowspan := [] }

/-- Method `visit_row`: append a fresh row unless placeholder rows from an
earlier rowspan already cover the current index. -/
def visit_row (st : TState) : Except RErr TState :=
  match st.table with
  | none => .error .typeError
  | some tbl =>
      if tbl.length ≤ st.tableCurRow then .ok { st with table := some (tbl ++ [[]]) }
      else .ok st

/-- Method `depart_row`: advance the row cursor. -/
def depart_row (st : TState) : TState :=
  { st with tableCurRow := st.tableCurRow + 1 }

/-! ### Lists -/

/-- Method `visit_bullet_list`: push the bullet marker `-1`. -/
def visit_bullet_list (lc : List Int) : List Int := -1 :: lc

/-- Method `depart_bullet_list`: pop one marker. -/
def depart_bullet_list (lc : List Int) : List Int := lc.tail

/-- Method `visit_enumerated_list`: push a fresh counter starting at 0. -/
def visit_enumerated_list (lc : List Int) : List Int := 0 :: lc

/-- Method `depart_enumerated_list`: pop one marker. -/
def depart_enumerated_list (lc : List Int) : List Int := lc.tail

/-- The state change of `visit_list_item` on the counter stack, paired with
the indent of the frame it pushes (`none` when no frame is pushed):
bullet items get a fixed indent 2, definition items do nothing, enumerated
items increment the counter and push an indent of the decimal width of the
new counter plus the base indent.  (The empty-stack case is unreachable:
the traversal raises IndexError before calling this.) -/
def list_item_enter (indent : Int) (lc : List Int) : List Int × Option Int :=
  match lc with
  | [] => ([], none)
  | c :: rest =>
    if c = -1 then (c :: rest, some 2)
    else if c = -2 then (c :: rest, none)
    else ((c + 1) :: rest, some ((toString (c + 1)).length + indent))

/-- The `first` argument `depart_list_item` passes to `end_state` (`none`
when it calls no `end_state` at all, i.e. for definition lists): `"* "` for
bullets, `"<n>. "` for enumerated items. -/
def list_item_first (lc : List Int) : Option String :=
  match lc with
  | [] => none
  | c :: _ =>
    if c = -1 then some "* "
    else if c = -2 then none
    else some (toString c ++ ". ")

/-- Method `visit_list_item`: dispatch on the innermost counter (IndexError
on an empty counter stack), update it via `list_item_enter`, and push the
computed frame when one is called for. -/
def visit_list_item (cfg : Config) (st : TState) : Except RErr TState :=
  match st.listCounter with
  | [] => .error .indexError
  | c :: lrest =>
      let p := list_item_enter cfg.indent (c :: lrest)
      let st := { st with listCounter := p.1 }
      .ok (match p.2 with
           | some i => new_state i st
           | none => st)

/-- Method `depart_list_item`: dispatch on the innermost counter and close
the item's frame with the appropriate `first` prefix (no close for
definition-list items). -/
def depart_list_item (st : TState) : Except RErr TState :=
  match st.listCounter with
  | [] => .error .indexError
  | c' :: lrest' =>
      match list_item_first (c' :: lrest') with
      | some f => end_state none (some f) st
      | none => .ok st

/-- Enter/exit `visit_list_item`/`depart_list_item` for `n` successive items
on a counter stack, recording for each item the indent of the pushed frame
and the `first` prefix spliced on exit. -/
def runEnumItems (indent : Int) : Nat → List Int → List Int × List (Option Int) × List (Option String)
  | 0, lc => (lc, [], [])
  | n + 1, lc =>
      let (lc1, ind?) := list_item_enter indent lc
      let first? := list_item_first lc1
      let (lcf, inds, firsts) := runEnumItems indent n lc1
      (lcf, ind? :: inds, first? :: firsts)

/-! ### The document tree and the traversal -/

/-- The embedded fragment of the docutils node set: the kinds exercised by
the properties under verification.  A `reference` carries the optional
attributes `refuri`, `name`, `refid`, `reftitle` and the presence flag
`internal`; an `entry` carries the optional `morecols`/`morerows` spans;
an `image` carries the optional `alt` attribute (its children are never
rendered: `visit_image` raises SkipNode). -/
inductive Node where
  | text (s : String)
  | document (children : List Node)
  | section (children : List Node)
  | title (children : List Node)
  | paragraph (children : List Node)
  | bullet_list (children : List Node)
  | enumerated_list (children : List Node)
  | list_item (children : List Node)
  | image (alt : Option String) (children : List Node)
  | reference (refuri nm refid reftitle : Option String) (internal : Bool)
      (children : List Node)
  | table (children : List Node)
  | row (children : List Node)
  | entry (morecols morerows : Option Nat) (children : List Node)

/-- The children of a node (`text` is a leaf). -/
def Node.kids : Node → List Node
  | .text _ => []
  | .document cs => cs
  | .section cs => cs
  | .title cs => cs
  | .paragraph cs => cs
  | .bullet_list cs => cs
  | .enumerated_list cs => cs
  | .list_item cs => cs
  | .image _ cs => cs
  | .reference _ _ _ _ _ cs => cs
  | .table cs => cs
  | .row cs => cs
  | .entry _ _ cs => cs

/-- Whether the node is a section (the parent test of `depart_title`). -/
def Node.isSec : Node → Bool
  | .section _ => true
  | _ => false

/-- Parent test `isinstance(node.parent, nodes.section)`. -/
def parentIsSection : Option Node → Bool
  | some p => p.isSec
  | none => false

/-- Parent test `isinstance(node.parent, nodes.Admonition)`.  No admonition
kind belongs to the embedded fragment, so the test is constantly false;
it is kept so the guards of `visit_title` and `visit_paragraph` mirror the
source. -/
def parentIsAdmonition : Option Node → Bool
  | _ => false

/-- Parent test `isinstance(node.parent, addnodes.seealso)` (same remark). -/
def parentIsSeealso : Option Node → Bool
  | _ => false

/-- Fuel-indexed `node.astext()` for the embedded fragment (TextElement
separator, i.e. plain concatenation of the texts of the leaves; it is
consulted only for reference nodes, whose children are inline). -/
def astextL : Nat → List Node → String
  | 0, _ => ""
  | _ + 1, [] => ""
  | fuel + 1, n :: rest =>
      (match n with
       | .text s => s
       | other => astextL fuel other.kids) ++ astextL fuel rest

/-- The lines joined by `depart_document`: each block line is prefixed with
its indent's spaces unless empty; a raw span left in the root frame would be
iterated character by character (Python unpacks it as `(-1, text)`). -/
def bodyLines (frame : List SEntry) : List String :=
  (frame.map fun e =>
    match e with
    | .block i lines => lines.map fun line => if line = "" then "" else spacesI i ++ line
    | .raw t => t.data.map fun c => String.mk [c]).flatten

/-- The depth-first `walkabout` of docutils over a list of siblings,
dispatching to the visit/depart methods of the translator.  A visit method
that raises SkipNode skips both the children and the departure.  `fuel`
decreases on every recursive call; `RErr.fuelOut` is returned only when it
runs out, which concrete runs avoid by supplying enough fuel. -/
def walkabout (cfg : Config) : Nat → Option Node → List Node → TState → Except RErr TState
  | _, _, [], st => .ok st
  | 0, _, _ :: _, _ => .error .fuelOut
  | fuel + 1, parent, n :: rest, st =>
      (match n with
        | .text s =>
            -- visit_Text adds the text; depart_Text does nothing
            .ok (add_text s st)
        | .document cs => do
            -- visit_document / depart_document (which also assembles body
            -- from the root frame, Python's states[0] = the last frame here)
            let st := new_state 0 st
            let st ← walkabout cfg fuel (some (.document cs)) cs st
            let st ← end_state (some [""]) none st
            .ok { st with
                    body := String.intercalate cfg.nl
                      (bodyLines ((st.states.getLast?).getD [])) }
        | .section cs => do
            let st ← visit_section cfg st
            let st ← walkabout cfg fuel (some (.section cs)) cs st
            .ok { st with sectionlevel := st.sectionlevel - 1 }
        | .title cs =>
            if parentIsAdmonition parent then
              -- add the title inline and raise SkipNode
              .ok (add_text (astextL fuel cs ++ ": ") st)
            else do
              let st := new_state 0 st
              let st ← walkabout cfg fuel (some (.title cs)) cs st
              depart_title (parentIsSection parent) st
        | .paragraph cs =>
            if ¬ parentIsAdmonition parent = true ∨ parentIsSeealso parent then do
              let st := new_state 0 st
              let st ← walkabout cfg fuel (some (.paragraph cs)) cs st
              end_state (some [""]) none st
            else
              walkabout cfg fuel (some (.paragraph cs)) cs st
        | .bullet_list cs => do
            let st := { st with listCounter := visit_bullet_list st.listCounter }
            let st ← walkabout cfg fuel (some (.bullet_list cs)) cs st
            .ok { st with listCounter := depart_bullet_list st.listCounter }
        | .enumerated_list cs => do
            let st := { st with listCounter := visit_enumerated_list st.listCounter }
            let st ← walkabout cfg fuel (some (.enumerated_list cs)) cs st
            .ok { st with listCounter := depart_enumerated_list st.listCounter }
        | .list_item cs => do
            let st ← visit_list_item cfg st
            let st ← walkabout cfg fuel (some (.list_item cs)) cs st
            depart_list_item st
        | .image alt _cs =>
            -- both texts are added, then SkipNode: children never rendered
            .ok ((visit_image alt).foldl (fun s t => add_text t s) st)
        | .reference refuri nm refid reftitle internal cs =>
            match refuri with
            | none =>
                match nm with
                | some name' => .ok (add_text ("`" ++ name' ++ "`_") st)
                | none =>
                    match refid with
                    | some _ =>
                        -- plain `return`: no SkipNode, so the children are
                        -- rendered; depart_reference adds nothing
                        walkabout cfg fuel
                          (some (.reference refuri nm refid reftitle internal cs)) cs st
                    | none => .error .notImplemented
            | some uri =>
                if internal = false then
                  match nm with
                  | some name' => .ok (add_text ("`" ++ name' ++ " <" ++ uri ++ ">`_") st)
                  | none => .ok (add_text ("`" ++ uri ++ " <" ++ uri ++ ">`_") st)
                else
                  match reftitle with
                  | some _ => .ok (add_text ("`" ++ astextL fuel cs ++ " <" ++ uri ++ ">`_") st)
                  | none => .ok (add_text ("`" ++ astextL fuel cs ++ " <" ++ uri ++ ">`_") st)
        | .table cs => do
            let st ← visit_table st
            let st ← walkabout cfg fuel (some (.table cs)) cs st
            depart_table cfg st
        | .row cs => do
            let st ← visit_row st
            let st ← walkabout cfg fuel (some (.row cs)) cs st
            .ok (depart_row st)
        | .entry mc mr cs => do
            let st := new_state 0 st
            let st ← walkabout cfg fuel (some (.entry mc mr cs)) cs st
            depart_entry cfg mc mr st) >>=
      fun st => walkabout cfg fuel parent rest st

/-- Render a document tree: walk it from the freshly initialised translator
state and return the assembled `body`. -/
def render (cfg : Config) (fuel : Nat) (doc : Node) : Except RErr String :=
  (walkabout cfg fuel none [doc] initState).map TState.body

/-! ### Concrete input trees and invariants used by the theorems -/

/-- A chain of `n + 1` nested sections, each carrying a title. -/
def deepSections : Nat → Node
  | 0 => .section [.title [.text "T"]]
  | n + 1 => .section [.title [.text "T"], deepSections n]

/-- The scenario tree of the specification: one section titled `Title`
containing one paragraph `Hello world`. -/
def scenarioDoc : Node :=
  .document [.section [.title [.text "Title"], .paragraph [.text "Hello world"]]]

/-- A reference with no `refuri`, no `name`, only a `refid`, wrapping the
text `hello`, inside a paragraph. -/
def refidDoc : Node :=
  .document [.paragraph
    [.reference none none (some "target-id") none false [.text "hello"]]]

/-- Counter values that ever occur on `list_counter`: `-1` (bullet), `-2`
(definition) or a non-negative enumeration count. -/
def CValsOK (lc : List Int) : Prop := ∀ c ∈ lc, -2 ≤ c

/-- The traversal invariant: at least one frame, frames and indents in
lock step, and well-formed counter values. -/
def StackInv (st : TState) : Prop :=
  1 ≤ st.states.length ∧ st.states.length = st.stateindent.length ∧
    CValsOK st.listCounter

/-- The branch class of a counter value, as dispatched by
`visit_list_item`/`depart_list_item`: bullet, definition, or enumerated. -/
def classOf (c : Int) : Nat :=
  if c = -1 then 0 else if c = -2 then 1 else 2

/-- Relation between the counter stack before and after walking any forest:
same depth, all outer counters untouched, and the innermost counter keeps
its branch class. -/
def LCrel (lc lc' : List Int) : Prop :=
  lc'.length = lc.length ∧ lc'.drop 1 = lc.drop 1 ∧
  ∀ c rest c' rest', lc = c :: rest → lc' = c' :: rest' → classOf c' = classOf c

/-- What a completed walk guarantees: frame and indent counts restored,
counters related by `LCrel`, and counter values still well formed. -/
def Post (st st' : TState) : Prop :=
  st'.states.length = st.states.length ∧
  st'.stateindent.length = st.stateindent.length ∧
  LCrel st.listCounter st'.listCounter ∧ CValsOK st'.listCounter

/-- The column-text maximum of the specification's width formula: the
longest cell text among the rows that reach column `c`. -/
def specColTextMax (table : List (List String)) (c : Nat) : Nat :=
  (table.filterMap fun row =>
    if c < row.length then some ((row.getD c "").length) else none).foldl max 0

/-- Decidable equality on `Except`, so concrete run results can be compared
by `decide`. -/
instance {ε α : Type} [DecidableEq ε] [DecidableEq α] : DecidableEq (Except ε α) :=
  fun x y =>
    match x, y with
    | .ok a, .ok b =>
        if h : a = b then .isTrue (by rw [h])
        else .isFalse (fun hh => h (Except.ok.inj hh))
    | .error a, .error b =>
        if h : a = b then .isTrue (by rw [h])
        else .isFalse (fun hh => h (Except.error.inj hh))
    | .ok _, .error _ => .isFalse (fun hh => Except.noConfusion hh)
    | .error _, .ok _ => .isFalse (fun hh => Except.noConfusion hh)

/-! ## Theorems -/

/-- Claim C1, counterexample.  The claim asserts that the underline
character is selected cyclically (depth modulo sequence length) even at
depths beyond the sequence.  With the default seven-character sequence, a
document whose sections nest eight deep would then render (the eighth
section reusing the first character); instead `visit_section` subscripts
the sequence without a modulus and the render aborts with an index error. -/
theorem C1_counterexample :
    render defaultConfig 100 (.document [deepSections 7]) = .error .indexError ∧
    defaultConfig.sectionchars.length = 7 := by
  exact ⟨rfl, rfl⟩

/-- Claim C1, amended: for a nesting depth below the length of the
configured decoration sequence, entering a section selects the character at
index exactly the depth (no cyclic reuse); at depths at or beyond the
length the render aborts with an index error; and on exit of a section's
title the title text is followed by a line of the selected character
repeated to the title's length. -/
theorem C1_amended :
    (∀ (cfg : Config) (st : TState),
        st.sectionlevel < cfg.sectionchars.length →
        visit_section cfg st =
          .ok { st with titleChar := cfg.sectionchars.data.getD st.sectionlevel ' ',
                        sectionlevel := st.sectionlevel + 1 }) ∧
    (∀ (cfg : Config) (st : TState),
        cfg.sectionchars.length ≤ st.sectionlevel →
        visit_section cfg st = .error .indexError) ∧
    (∀ (st : TState) (content below : List SEntry) (rest : List (List SEntry))
        (i : Int) (irest : List Int),
        st.states = content :: below :: rest →
        st.stateindent = i :: irest →
        depart_title true st =
          .ok { st with
                  states := (below ++ [SEntry.block 0
                    ["", titleText content,
                     strRepeat st.titleChar (titleText content).length, ""]]) :: rest,
                  stateindent := irest }) := by
  refine ⟨?_, ?_, ?_⟩
  · intro cfg st h
    have h' : st.sectionlevel < cfg.sectionchars.data.length := h
    unfold visit_section
    rw [List.getElem?_eq_getElem h', List.getD_eq_getElem _ _ h']
  · intro cfg st h
    have h' : cfg.sectionchars.data.length ≤ st.sectionlevel := h
    unfold visit_section
    rw [List.getElem?_eq_none h']
  · intro st content below rest i irest hs hi
    unfold depart_title
    rw [hs, hi]
    simp

/-- Witness for `C1_amended` at concrete inputs: the first section level of
the default configuration, an exhausted level, and a title frame holding
the raw span `T` under a stored character `=`. -/
theorem C1_amended_witness :
    visit_section defaultConfig initState =
      .ok { initState with
              titleChar := defaultConfig.sectionchars.data.getD 0 ' ',
              sectionlevel := 1 } ∧
    visit_section defaultConfig { initState with sectionlevel := 7 } =
      .error .indexError ∧
    depart_title true
        { initState with states := [[SEntry.raw "T"], []],
                         stateindent := [0, 0], titleChar := '=' } =
      .ok { initState with
              states := [[] ++ [SEntry.block 0
                ["", titleText [SEntry.raw "T"],
                 strRepeat '=' (titleText [SEntry.raw "T"]).length, ""]]],
              stateindent := [0], titleChar := '=' } :=
  ⟨C1_amended.1 defaultConfig initState (by decide),
   C1_amended.2.1 defaultConfig { initState with sectionlevel := 7 } (by decide),
   C1_amended.2.2 { initState with states := [[SEntry.raw "T"], []],
                                   stateindent := [0, 0], titleChar := '=' }
     [SEntry.raw "T"] [] [] 0 [0] rfl rfl⟩

/-- Claim C2, counterexample.  For an image with an `alt` attribute the
renderer does not emit only `[image: <alt>]`: the unconditional second
`add_text` also emits `[image]`, so both texts appear. -/
theorem C2_counterexample :
    visit_image (some "x") = ["[image: x]", "[image]"] ∧
    visit_image (some "x") ≠ ["[image: x]"] := by
  exact ⟨rfl, by decide⟩

/-- Claim C2, amended: with an `alt` attribute the renderer emits
`[image: <alt>]` followed by `[image]`; without one it emits exactly
`[image]`; in either case the node's children are skipped (the traversal
adds the texts and moves on to the following siblings without descending). -/
theorem C2_amended :
    (∀ a : String, visit_image (some a) = ["[image: " ++ a ++ "]", "[image]"]) ∧
    visit_image none = ["[image]"] ∧
    (∀ (cfg : Config) (fuel : Nat) (parent : Option Node) (alt : Option String)
        (cs rest : List Node) (st : TState),
        walkabout cfg (fuel + 1) parent (.image alt cs :: rest) st =
          walkabout cfg fuel parent rest
            ((visit_image alt).foldl (fun s t => add_text t s) st)) := by
  refine ⟨fun a => rfl, rfl, fun cfg fuel parent alt cs rest st => rfl⟩

/-- Claim C3, counterexample.  A reference with no target URI and no name,
only an internal id, does not disappear: its subtree is still rendered, so
a paragraph holding such a reference around the text `hello` renders as
`hello` (plus the paragraph's closing blank line) rather than as nothing. -/
theorem C3_counterexample :
    render defaultConfig 100 refidDoc = .ok "hello\n" ∧ "hello\n" ≠ "" := by
  exact ⟨rfl, by decide⟩

/-- Claim C3, amended: for a reference with no `refuri` and no `name` but a
`refid`, the node itself contributes no text (no link markup is emitted and
`depart_reference` adds nothing), but its children are traversed normally
and their rendered text is kept. -/
theorem C3_amended :
    ∀ (cfg : Config) (fuel : Nat) (parent : Option Node)
      (refid : String) (reftitle : Option String) (internal : Bool)
      (cs rest : List Node) (st : TState),
      walkabout cfg (fuel + 1) parent
          (.reference none none (some refid) reftitle internal cs :: rest) st =
        walkabout cfg fuel
            (some (.reference none none (some refid) reftitle internal cs)) cs st >>=
          walkabout cfg fuel parent rest := by
  intro cfg fuel parent refid reftitle internal cs rest st
  rfl

/-- Claim C4, counterexample.  The claim covers a second table opened
while a table is active "regardless of how many rows the first table has
accumulated so far".  But the guard is Python truthiness (`if self.table:`),
and an active table that has not yet accumulated any row is the empty list,
which is falsy: `visit_table` then succeeds instead of aborting. -/
theorem C4_counterexample :
    visit_table { initState with table := some [] } ≠ .error .nestedTable ∧
    (visit_table { initState with table := some [] }).isOk = true := by
  exact ⟨by decide, rfl⟩

/-- Claim C4, amended: entering a table raises the explicit "not supported"
error exactly when the active table matrix is non-empty (at least one row
accumulated); a second table opened while the active matrix is still empty
is silently accepted.  When any fatal error is raised the whole render
returns that error and no output. -/
theorem C4_amended :
    (∀ st : TState,
        visit_table st = .error .nestedTable ↔ ∃ t, st.table = some t ∧ t ≠ []) ∧
    (∀ (cfg : Config) (fuel : Nat) (doc : Node) (e : RErr),
        walkabout cfg fuel none [doc] initState = .error e →
        render cfg fuel doc = .error e) := by
  constructor
  · intro st
    unfold visit_table
    cases htab : st.table with
    | none => simp [pyTruthyTable]
    | some t =>
        cases t with
        | nil => simp [pyTruthyTable]
        | cons r rs => simp [pyTruthyTable]
  · intro cfg fuel doc e h
    simp [render, h, Except.map]

/-- Witness for `C4_amended`: the fresh state has no active table (the
characterisation yields no error), and the render of a table directly
containing a table (both still rowless) propagates the fatal error of the
second `depart_table`, which finds the matrix already cleared. -/
theorem C4_amended_witness :
    (visit_table initState = .error .nestedTable ↔
      ∃ t, initState.table = some t ∧ t ≠ []) ∧
    render defaultConfig 100 (.document [.table [.table []]]) =
      .error .typeError :=
  ⟨C4_amended.1 initState,
   C4_amended.2 defaultConfig 100 (.document [.table [.table []]]) .typeError rfl⟩

/-- Claim C5, counterexample.  The scenario render is not the bare four
lines: the title block opens with an empty line, the underline character of
a first-level section under the default configuration is `*` (the first
character of `text_sectionchars`), not `=`, and the paragraph's closing
`end` line leaves a trailing empty line. -/
theorem C5_counterexample :
    render defaultConfig 100 scenarioDoc = .ok "\nTitle\n*****\n\nHello world\n" ∧
    render defaultConfig 100 scenarioDoc ≠ .ok "Title\n=====\n\nHello world" := by
  exact ⟨rfl, by decide⟩

/-- Claim C5, amended: under the default configuration the scenario tree
renders as the six newline-joined lines `'' , 'Title', '*****', '',
'Hello world', ''` — a leading blank line, the title underlined with `*`
repeated to its length, a blank separator, the paragraph text, and a
trailing blank line. -/
theorem C5_amended :
    render defaultConfig 100 scenarioDoc =
      .ok (String.intercalate "\n" ["", "Title", "*****", "", "Hello world", ""]) := by
  rfl

/-- Claim C6, counterexample.  The directive emitted for a highlighted
block uses the standard two-colon form `.. code-block:: <language>`, not
the single-colon form `.. code-block: <language>` stated by the claim. -/
theorem C6_counterexample :
    literal_block_marker defaultConfig "x" "x" (some "python") false =
      [".. code-block:: python"] ∧
    ".. code-block:: python" ≠ ".. code-block: python" := by
  exact ⟨rfl, by decide⟩

/-- Adding a raw text never touches the indent stack. -/
theorem add_text_stateindent (t : String) (st : TState) :
    (add_text t st).stateindent = st.stateindent := by
  unfold add_text
  cases st.states <;> rfl

/-- Folding `add_text` over a list of texts never touches the indent
stack. -/
theorem addTexts_stateindent (l : List String) (st : TState) :
    (l.foldl (fun s t => add_text t s) st).stateindent = st.stateindent := by
  induction l generalizing st with
  | nil => rfl
  | cons t rest ih => rw [List.foldl_cons, ih, add_text_stateindent]

/-- Claim C6, amended: a literal block whose raw source differs from its
rendered text, or whose language tag is the default, gets the bare `::`
marker; otherwise it gets the `.. code-block:: <language>` directive line
(two colons), followed by the `:linenos:` flag exactly when the
preserve-flags configuration is set and the node enables line numbers; and
the body is put in a frame indented by the configured indent and closed by
the non-wrapping `end_state`. -/
theorem C6_amended :
    (∀ (cfg : Config) (rawsource astext : String) (language : Option String)
        (linenos : Bool), rawsource ≠ astext →
        literal_block_marker cfg rawsource astext language linenos = ["::"]) ∧
    (∀ (cfg : Config) (rawsource : String) (language : Option String)
        (linenos : Bool), language.getD "default" = "default" →
        literal_block_marker cfg rawsource rawsource language linenos = ["::"]) ∧
    (∀ (cfg : Config) (rawsource lang : String) (linenos : Bool),
        lang ≠ "default" →
        literal_block_marker cfg rawsource rawsource (some lang) linenos =
          [".. code-block:: " ++ lang] ++
            (if cfg.preserveCodeBlockFlags then
               (if linenos then ["\n   :linenos:"] else [])
             else [])) ∧
    (∀ (cfg : Config) (rawsource astext : String) (language : Option String)
        (linenos : Bool) (st : TState),
        (visit_literal_block cfg rawsource astext language linenos st).stateindent =
          cfg.indent :: st.stateindent) ∧
    (∀ st : TState, depart_literal_block st = end_state (some [""]) none st) := by
  refine ⟨?_, ?_, ?_, ?_, fun st => rfl⟩
  · intro cfg rawsource astext language linenos h
    unfold literal_block_marker
    simp [h]
  · intro cfg rawsource language linenos h
    unfold literal_block_marker
    simp [h]
  · intro cfg rawsource lang linenos h
    unfold literal_block_marker
    simp [h, Option.getD]
  · intro cfg rawsource astext language linenos st
    unfold visit_literal_block new_state
    simp [addTexts_stateindent]

/-- Witness for `C6_amended` at concrete inputs: a parsed-literal block, a
default-language block, a python block with flags enabled, and the frame
pushed for the body. -/
theorem C6_amended_witness :
    literal_block_marker defaultConfig "a" "b" (some "python") true = ["::"] ∧
    literal_block_marker defaultConfig "a" "a" none true = ["::"] ∧
    literal_block_marker { defaultConfig with preserveCodeBlockFlags := true }
        "a" "a" (some "python") true =
      [".. code-block:: python"] ++
        (if ({ defaultConfig with preserveCodeBlockFlags := true } : Config).preserveCodeBlockFlags
         then (if true then ["\n   :linenos:"] else []) else []) ∧
    (visit_literal_block defaultConfig "a" "a" none false initState).stateindent =
      defaultConfig.indent :: initState.stateindent :=
  ⟨C6_amended.1 defaultConfig "a" "b" (some "python") true (by decide),
   C6_amended.2.1 defaultConfig "a" none true rfl,
   C6_amended.2.2.1 { defaultConfig with preserveCodeBlockFlags := true }
     "a" "python" true (by decide),
   C6_amended.2.2.2.1 defaultConfig "a" "a" none false initState⟩

/-- Claim C10, counterexample.  With the windows newline convention
(`nl = "\r\n"`), a cell whose frame holds the raw spans of an image whose
alt text contains a CRLF stores a text that still contains the configured
newline string: deleting `"\r\n"` in a single left-to-right pass over the
character-joined text leaves a new `"\r\n"` formed by the deletion's
flanks. -/
theorem C10_counterexample :
    containsSub "\r\n".data
      (entryText "\r\n" [.raw "[image: a\r\nb]", .raw "[image]"]).data = true := by
  rfl

/-- One-pass deletion of a single-character pattern is complete: the
character cannot survive, because every position either starts a match
(and is deleted) or differs from it. -/
theorem pyReplaceDelF_single (c : Char) :
    ∀ (fuel : Nat) (l : List Char), l.length ≤ fuel →
      c ∉ pyReplaceDelF [c] fuel l := by
  intro fuel
  induction fuel with
  | zero =>
      intro l hl
      have h0 : l = [] := List.eq_nil_of_length_eq_zero (Nat.le_zero.mp hl)
      subst h0
      simp [pyReplaceDelF]
  | succ fuel ih =>
      intro l hl
      cases l with
      | nil => simp [pyReplaceDelF]
      | cons c' rest =>
          have hrest : rest.length ≤ fuel := by
            simp only [List.length_cons] at hl
            omega
          simp only [pyReplaceDelF]
          split
          · next hcond =>
              have hdrop : (c' :: rest).drop ([c].length) = rest := by simp
              rw [hdrop]
              exact ih rest hrest
          · next hcond =>
              have hne : ¬ ([c].isPrefixOf (c' :: rest) = true) := fun hp =>
                hcond ⟨by simp, hp⟩
              have hcc : ¬ c = c' := by
                simpa [List.isPrefixOf] using hne
              simp only [List.mem_cons]
              rintro (h | h)
              · exact hcc h
              · exact ih rest hrest h

/-- Claim C10, amended: with a single-character newline convention (the
default unix `"\n"`, and the native convention on unix hosts) the text
stored for a cell contains no newline character at all, so every cell body
is a single line; with the two-character windows convention `"\r\n"` the
one-pass deletion can leave a new occurrence formed by the flanks of a
deleted one (see the counterexample). -/
theorem C10_amended (c : Char) (content : List SEntry) :
    c ∉ (entryText (String.mk [c]) content).data := by
  unfold entryText pyReplace pyReplaceDel
  exact pyReplaceDelF_single c _ _ (Nat.le_refl _)

/-! ### Column widths and colspan cells (claim C7) -/

/-- An if-then-else maximum is the maximum. -/
theorem ite_lt_max (a b : Nat) : (if a < b then b else a) = max a b := by
  split <;> omega

/-- For an in-range column, the width list holds `getMaxColWidth`. -/
theorem colLen_getD (table : List (List String)) (x : Nat)
    (h : x < getMaxRowLen table) :
    (getAllColLen table).getD x 0 = getMaxColWidth table x := by
  have hx : x < ((List.range (getMaxRowLen table)).map (getMaxColWidth table)).length := by
    simpa using h
  unfold getAllColLen
  rw [List.getD_eq_getElem _ _ hx]
  simp

/-- The accumulator of the `getMaxColWidth` fold never decreases. -/
theorem colWidth_foldl_mono (idx : Nat) :
    ∀ (rows : List (List String)) (acc : Nat),
      acc ≤ rows.foldl
        (fun maxi row =>
          if idx < row.length then
            let cur := (row.getD idx "").length + 2
            if maxi < cur then cur else maxi
          else maxi) acc := by
  intro rows
  induction rows with
  | nil => intro acc; simp
  | cons r rs ih =>
      intro acc
      refine Nat.le_trans ?_ (ih _)
      dsimp only
      split
      · split <;> omega
      · omega

/-- The `getMaxColWidth` fold is monotone in its accumulator. -/
theorem colWidth_foldl_mono_acc (idx : Nat) :
    ∀ (rows : List (List String)) (a b : Nat), a ≤ b →
      rows.foldl
        (fun maxi row =>
          if idx < row.length then
            let cur := (row.getD idx "").length + 2
            if maxi < cur then cur else maxi
          else maxi) a ≤
      rows.foldl
        (fun maxi row =>
          if idx < row.length then
            let cur := (row.getD idx "").length + 2
            if maxi < cur then cur else maxi
          else maxi) b := by
  intro rows
  induction rows with
  | nil => intro a b h; simpa using h
  | cons r rs ih =>
      intro a b h
      rw [List.foldl_cons, List.foldl_cons]
      refine ih _ _ ?_
      dsimp only
      split
      · split <;> split <;> omega
      · exact h

/-- Any present cell's text length plus 2 bounds the column width. -/
theorem colWidth_le (table : List (List String)) (y x : Nat)
    (hy : y < table.length) (hx : x < (table.getD y []).length) :
    ((table.getD y []).getD x "").length + 2 ≤ getMaxColWidth table x := by
  unfold getMaxColWidth
  induction table generalizing y with
  | nil => simp at hy
  | cons r rs ih =>
      cases y with
      | zero =>
          simp only [List.getD_cons_zero] at hx ⊢
          rw [List.foldl_cons]
          refine Nat.le_trans ?_ (colWidth_foldl_mono x rs _)
          dsimp only
          rw [if_pos hx]
          split <;> omega
      | succ y' =>
          simp only [List.getD_cons_succ] at hx ⊢
          rw [List.foldl_cons]
          have hy' : y' < rs.length := by
            simp only [List.length_cons] at hy
            omega
          refine Nat.le_trans (ih y' hy' hx) ?_
          exact colWidth_foldl_mono_acc x rs 0 _ (Nat.zero_le _)


/-- Length of a repeated character. -/
theorem strRepeat_length (c : Char) (n : Nat) : (strRepeat c n).length = n := by
  simp [strRepeat, String.length]

/-- Both branches of `writeCell` draw `1 + length` characters once the text
fits in the column (the leading bar plus the interior). -/
theorem writeCell_length (table : List (List String)) (y x : Nat)
    (length : Nat) (rowspan : List ((Nat × Nat) × Nat))
    (hfit : ((table.getD y []).getD x "").length + 2 ≤ length) :
    (writeCell table y x length rowspan).length = 1 + length := by
  unfold writeCell
  split
  · rw [String.length_append, strRepeat_length]
    rfl
  · simp only [String.length_append, strRepeat_length]
    have h2 : ("| ".length : Nat) = 2 := rfl
    have h1 : (" ".length : Nat) = 1 := rfl
    omega

/-- Length of a colspan filler cell. -/
theorem writeColspanCell_length (length v : Nat) :
    (writeColspanCell length v).length = length + v - 1 := by
  simp [writeColspanCell, strRepeat_length]

/-- A Python slice summed equals the sum over the index range, when the
slice stays inside the list. -/
theorem pySlice_sum (l : List Nat) :
    ∀ (m a : Nat), a + m ≤ l.length →
      (pySlice l a (a + m)).sum =
        ((List.range m).map fun i => l.getD (a + i) 0).sum := by
  intro m
  induction m with
  | zero => intro a _; simp [pySlice]
  | succ m ih =>
      intro a hle
      have ha : a < l.length := by omega
      have hdrop : l.drop a = l[a] :: l.drop (a + 1) := List.drop_eq_getElem_cons ha
      have hstep : pySlice l a (a + (m + 1)) = l[a] :: pySlice l (a + 1) ((a + 1) + m) := by
        unfold pySlice
        rw [hdrop]
        have e1 : a + (m + 1) - a = m + 1 := by omega
        have e2 : (a + 1) + m - (a + 1) = m := by omega
        rw [e1, e2]
        rfl
      rw [hstep]
      have hrec := ih (a + 1) (by omega)
      rw [List.sum_cons, hrec]
      rw [List.range_succ_eq_map]
      simp only [List.map_cons, List.map_map, List.sum_cons, Nat.add_zero]
      have hgd : l.getD a 0 = l[a] := List.getD_eq_getElem l 0 ha
      rw [hgd]
      refine congrArg (fun z => l[a] + z) ?_
      refine congrArg List.sum (List.map_congr_left fun i _ => ?_)
      show l.getD (a + 1 + i) 0 = l.getD (a + (i + 1)) 0
      congr 1
      omega

/-- Shifting the accumulator out of a maximum fold. -/
theorem foldl_max_acc : ∀ (xs : List Nat) (a : Nat), xs.foldl max a = max a (xs.foldl max 0) := by
  intro xs
  induction xs with
  | nil => intro a; simp
  | cons x xs ih =>
      intro a
      rw [List.foldl_cons, List.foldl_cons, ih (max a x), ih (max 0 x)]
      omega

/-- `getMaxColWidth` is the maximum of per-row contributions (text length
plus 2 for present cells, 0 for rows that do not reach the column). -/
theorem colWidth_as_max (table : List (List String)) (c : Nat) :
    getMaxColWidth table c =
      (table.map fun row =>
        if c < row.length then (row.getD c "").length + 2 else 0).foldl max 0 := by
  unfold getMaxColWidth
  rw [List.foldl_map]
  have hstep : ∀ (rows : List (List String)) (acc : Nat),
      rows.foldl
        (fun maxi row =>
          if c < row.length then
            let cur := (row.getD c "").length + 2
            if maxi < cur then cur else maxi
          else maxi) acc =
      rows.foldl
        (fun m row => max m (if c < row.length then (row.getD c "").length + 2 else 0)) acc := by
    intro rows
    induction rows with
    | nil => intro acc; rfl
    | cons r rs ih =>
        intro acc
        rw [List.foldl_cons, List.foldl_cons, ih]
        congr 1
        dsimp only
        split
        · split <;> omega
        · omega
  exact hstep table 0

/-- `specColTextMax` is the maximum of per-row contributions (text length
for present cells, 0 otherwise: padding with zeros does not change a
maximum over naturals). -/
theorem specMax_as_max (table : List (List String)) (c : Nat) :
    specColTextMax table c =
      (table.map fun row =>
        if c < row.length then (row.getD c "").length else 0).foldl max 0 := by
  unfold specColTextMax
  have hstep : ∀ (rows : List (List String)) (acc : Nat),
      ((rows.filterMap fun row =>
          if c < row.length then some ((row.getD c "").length) else none).foldl max acc) =
      ((rows.map fun row =>
          if c < row.length then (row.getD c "").length else 0).foldl max acc) := by
    intro rows
    induction rows with
    | nil => intro acc; rfl
    | cons r rs ih =>
        intro acc
        by_cases hq : c < r.length
        · rw [List.filterMap_cons, List.map_cons]
          simp only [hq, if_true]
          rw [List.foldl_cons, List.foldl_cons, ih]
        · rw [List.filterMap_cons, List.map_cons]
          simp only [hq, if_false]
          rw [List.foldl_cons, ih]
          congr 1
          omega
  exact hstep table 0

/-- With no row reaching the column, both per-row maxima are zero. -/
theorem maxfold_zero (c : Nat) :
    ∀ (rows : List (List String)), (∀ r ∈ rows, ¬ c < r.length) →
      ((rows.map fun row =>
        if c < row.length then (row.getD c "").length + 2 else 0).foldl max 0 = 0 ∧
       (rows.map fun row =>
        if c < row.length then (row.getD c "").length else 0).foldl max 0 = 0) := by
  intro rows
  induction rows with
  | nil => intro _; exact ⟨rfl, rfl⟩
  | cons r rs ih =>
      intro hall
      have hr : ¬ c < r.length := hall r (List.mem_cons_self r rs)
      have hrs := ih fun t ht => hall t (List.mem_cons_of_mem r ht)
      simp only [List.map_cons, hr, if_false, List.foldl_cons]
      simpa using hrs

/-- When some row reaches the column, the column width is 2 plus the
maximal text length there. -/
theorem colWidth_formula (table : List (List String)) (c : Nat)
    (hex : ∃ row ∈ table, c < row.length) :
    getMaxColWidth table c = 2 + specColTextMax table c := by
  rw [colWidth_as_max, specMax_as_max]
  induction table with
  | nil => simp at hex
  | cons r rs ih =>
      simp only [List.map_cons, List.foldl_cons, Nat.max_zero, Nat.zero_max]
      rw [foldl_max_acc, foldl_max_acc ((rs.map fun row =>
        if c < row.length then (row.getD c "").length else 0)) _]
      by_cases hq : c < r.length
      · simp only [hq, if_true]
        by_cases hrs : ∃ row ∈ rs, c < row.length
        · have := ih hrs
          omega
        · have hall : ∀ t ∈ rs, ¬ c < t.length := by
            intro t ht htc
            exact hrs ⟨t, ht, htc⟩
          have hz := maxfold_zero c rs hall
          omega
      · simp only [hq, if_false]
        have hrs : ∃ row ∈ rs, c < row.length := by
          rcases hex with ⟨row, hmem, hlt⟩
          rcases List.mem_cons.mp hmem with h | h
          · exact absurd (h ▸ hlt) hq
          · exact ⟨row, h, hlt⟩
        have := ih hrs
        omega

/-- Splitting the first column out of a range sum of defaulted entries. -/
theorem range_map_getD_succ (l : List Nat) (x m : Nat) :
    ((List.range (m + 1)).map fun i => l.getD (x + i) 0).sum =
      l.getD x 0 + ((List.range m).map fun i => l.getD (x + 1 + i) 0).sum := by
  rw [List.range_succ_eq_map]
  simp only [List.map_cons, List.map_map, List.sum_cons, Nat.add_zero]
  refine congrArg (fun z => l.getD x 0 + z) ?_
  refine congrArg List.sum (List.map_congr_left fun i _ => ?_)
  show l.getD (x + (i + 1)) 0 = l.getD (x + 1 + i) 0
  congr 1
  omega

/-- Claim C7, confirmed.  Part one: as `drawTable` draws them, a cell at
column `x` spanning `k` columns occupies, beyond its leading border bar,
exactly the sum of the `k` underlying column widths plus `k - 1` characters
(the `writeCell` part plus the `writeColspanCell` filler, called with the
same arguments as in `drawTable`).  Part two: the width of a column that
some row reaches is 2 plus the maximum cell-text length at that column,
rows without that column contributing nothing. -/
theorem C7_colspan_width :
    (∀ (table : List (List String)) (y x k : Nat)
        (rowspan : List ((Nat × Nat) × Nat)),
        y < table.length → x < (table.getD y []).length → 1 ≤ k →
        x + k ≤ getMaxRowLen table →
        (writeCell table y x ((getAllColLen table).getD x 0) rowspan).length +
            (writeColspanCell (pySlice (getAllColLen table) (x + 1) (x + k)).sum k).length =
          1 + ((List.range k).map fun i => (getAllColLen table).getD (x + i) 0).sum +
            (k - 1)) ∧
    (∀ (table : List (List String)) (c : Nat),
        (∃ row ∈ table, c < row.length) →
        getMaxColWidth table c = 2 + specColTextMax table c) := by
  constructor
  · intro table y x k rowspan hy hx hk hxk
    have hxlt : x < getMaxRowLen table := by omega
    have hW : (getAllColLen table).getD x 0 = getMaxColWidth table x :=
      colLen_getD table x hxlt
    have hfit : ((table.getD y []).getD x "").length + 2 ≤
        (getAllColLen table).getD x 0 := by
      rw [hW]
      exact colWidth_le table y x hy hx
    rw [writeCell_length table y x _ rowspan hfit, writeColspanCell_length]
    have hlen : (getAllColLen table).length = getMaxRowLen table := by
      simp [getAllColLen]
    have hslice := pySlice_sum (getAllColLen table) (k - 1) (x + 1)
      (by rw [hlen]; omega)
    have he : (x + 1) + (k - 1) = x + k := by omega
    rw [he] at hslice
    obtain ⟨k', rfl⟩ : ∃ k', k = k' + 1 := ⟨k - 1, by omega⟩
    have hsplit := range_map_getD_succ (getAllColLen table) x k'
    rw [hsplit]
    have he2 : k' + 1 - 1 = k' := by omega
    rw [he2] at hslice ⊢
    rw [hslice]
    omega
  · intro table c hex
    exact colWidth_formula table c hex

/-- Witness for `C7_colspan_width` at the concrete table
`[[aa, '', ''], [b, c, d]]` with the cell at row 0, column 0 spanning all
three columns (widths 4, 3, 3): the drawn interior is `4 + 3 + 3 + 2`, and
column 0's width is `2 + 2`. -/
theorem C7_colspan_width_witness :
    (writeCell [["aa", "", ""], ["b", "c", "d"]] 0 0
        ((getAllColLen [["aa", "", ""], ["b", "c", "d"]]).getD 0 0) []).length +
      (writeColspanCell
        (pySlice (getAllColLen [["aa", "", ""], ["b", "c", "d"]]) 1 3).sum 3).length =
      1 + ((List.range 3).map fun i =>
        (getAllColLen [["aa", "", ""], ["b", "c", "d"]]).getD (0 + i) 0).sum + 2 ∧
    getMaxColWidth [["aa", "", ""], ["b", "c", "d"]] 0 =
      2 + specColTextMax [["aa", "", ""], ["b", "c", "d"]] 0 := by
  constructor
  · exact C7_colspan_width.1 [["aa", "", ""], ["b", "c", "d"]] 0 0 3 []
      (by decide) (by decide) (by decide) (by decide)
  · exact C7_colspan_width.2 [["aa", "", ""], ["b", "c", "d"]] 0
      ⟨["aa", "", ""], by simp, by decide⟩

/-! ### Infrastructure for the traversal invariants (claims C8, C9) -/

/-- Bind on an error result. -/
theorem ebind_error {α β : Type} (e : RErr) (f : α → Except RErr β) :
    (Except.error e >>= f) = Except.error e := rfl

/-- Bind on an ok result. -/
theorem ebind_ok {α β : Type} (a : α) (f : α → Except RErr β) :
    (Except.ok a >>= f) = f a := rfl

/-- `add_text` changes only the top frame's contents. -/
theorem add_text_effects (t : String) (st : TState) :
    (add_text t st).states.length = st.states.length ∧
    (add_text t st).stateindent = st.stateindent ∧
    (add_text t st).listCounter = st.listCounter ∧
    (add_text t st).table = st.table := by
  obtain ⟨sts, sid, lc, sl, tc, tb, tcr, tcs, trs, bd⟩ := st
  cases sts <;> exact ⟨rfl, rfl, rfl, rfl⟩

/-- Folding `add_text` changes only frame contents. -/
theorem addTexts_effects (l : List String) (st : TState) :
    ((l.foldl (fun s t => add_text t s) st).states.length = st.states.length ∧
     (l.foldl (fun s t => add_text t s) st).stateindent = st.stateindent ∧
     (l.foldl (fun s t => add_text t s) st).listCounter = st.listCounter) := by
  induction l generalizing st with
  | nil => exact ⟨rfl, rfl, rfl⟩
  | cons t rest ih =>
      rw [List.foldl_cons]
      have h1 := add_text_effects t st
      have h2 := ih (add_text t st)
      exact ⟨by rw [h2.1, h1.1], by rw [h2.2.1, h1.2.1], by rw [h2.2.2, h1.2.2.1]⟩

/-- `LCrel` is reflexive. -/
theorem LCrel_refl (lc : List Int) : LCrel lc lc := by
  refine ⟨rfl, rfl, ?_⟩
  intro c rest c' rest' h1 h2
  rw [h1] at h2
  cases h2
  rfl

/-- `LCrel` composes. -/
theorem LCrel_trans {a b c : List Int} (h1 : LCrel a b) (h2 : LCrel b c) : LCrel a c := by
  obtain ⟨hl1, hd1, hc1⟩ := h1
  obtain ⟨hl2, hd2, hc2⟩ := h2
  refine ⟨by omega, by rw [hd2, hd1], ?_⟩
  intro x rest x' rest' ha hc
  cases b with
  | nil =>
      rw [ha] at hl1
      simp at hl1
  | cons y ys =>
      exact (hc2 y ys x' rest' rfl hc).trans (hc1 x rest y ys ha rfl)

/-- `Post` is reflexive. -/
theorem Post_rfl (st : TState) (h : CValsOK st.listCounter) : Post st st :=
  ⟨rfl, rfl, LCrel_refl _, h⟩

/-- `Post` composes. -/
theorem Post_trans {a b c : TState} (h1 : Post a b) (h2 : Post b c) : Post a c :=
  ⟨h2.1.trans h1.1, h2.2.1.trans h1.2.1, LCrel_trans h1.2.2.1 h2.2.2.1, h2.2.2.2⟩

/-- `Post` carries the invariant forward. -/
theorem Post_inv {a b : TState} (ha : StackInv a) (h : Post a b) : StackInv b := by
  obtain ⟨h1, h2, _⟩ := ha
  obtain ⟨g1, g2, _, g4⟩ := h
  exact ⟨by omega, by omega, g4⟩

/-- An equal-state update satisfies `Post`. -/
theorem Post_of_eqs {a b : TState}
    (h1 : b.states.length = a.states.length)
    (h2 : b.stateindent.length = a.stateindent.length)
    (h3 : b.listCounter = a.listCounter) (hc : CValsOK a.listCounter) : Post a b :=
  ⟨h1, h2, h3 ▸ LCrel_refl a.listCounter, h3 ▸ hc⟩

/-- Unfolding equation of `end_state` on an explicit state. -/
theorem end_state_eq (endOpt : Option (List String)) (first : Option String)
    (a b : List SEntry) (r : List (List SEntry)) (i : Int) (ir : List Int)
    (lc : List Int) (sl : Nat) (tc : Char) (tb : Option (List (List String)))
    (tcr : Nat) (tcs trs : List ((Nat × Nat) × Nat)) (bd : String) :
    end_state endOpt first ⟨a :: b :: r, i :: ir, lc, sl, tc, tb, tcr, tcs, trs, bd⟩ =
      .ok ⟨(b ++ (spliceFirst i first (formatContent i endOpt a [])).map
              (fun p => SEntry.block p.1 p.2)) :: r,
           ir, lc, sl, tc, tb, tcr, tcs, trs, bd⟩ := rfl

/-- Closing spec of `end_state`: with at least two frames it succeeds and
pops exactly one, leaving counters untouched. -/
theorem end_state_spec (endOpt : Option (List String)) (first : Option String) :
    ∀ s2 : TState, 2 ≤ s2.states.length → 1 ≤ s2.stateindent.length →
      end_state endOpt first s2 ≠ .error .stackUnderflow ∧
      ∀ s3, end_state endOpt first s2 = .ok s3 →
        s3.states.length + 1 = s2.states.length ∧
        s3.stateindent.length + 1 = s2.stateindent.length ∧
        s3.listCounter = s2.listCounter := by
  intro s2 hs hi
  obtain ⟨sts, sid, lc, sl, tc, tb, tcr, tcs, trs, bd⟩ := s2
  simp only at hs hi
  cases sts with
  | nil => simp at hs
  | cons a tail =>
    cases tail with
    | nil => simp at hs
    | cons b r =>
      cases sid with
      | nil => simp at hi
      | cons i ir =>
        rw [end_state_eq]
        constructor
        · intro hcontra
          exact Except.noConfusion hcontra
        · intro s3 h
          cases h
          simp

/-- Closing spec of `depart_title`: with at least two frames it succeeds,
pops one, and leaves the counters untouched. -/
theorem depart_title_spec (pSec : Bool) :
    ∀ s2 : TState, 2 ≤ s2.states.length → 1 ≤ s2.stateindent.length →
      depart_title pSec s2 ≠ .error .stackUnderflow ∧
      ∀ s3, depart_title pSec s2 = .ok s3 →
        s3.states.length + 1 = s2.states.length ∧
        s3.stateindent.length + 1 = s2.stateindent.length ∧
        s3.listCounter = s2.listCounter := by
  intro s2 hs hi
  obtain ⟨sts, sid, lc, sl, tc, tb, tcr, tcs, trs, bd⟩ := s2
  simp only at hs hi
  cases sts with
  | nil => simp at hs
  | cons a tail =>
    cases tail with
    | nil => simp at hs
    | cons b r =>
      cases sid with
      | nil => simp at hi
      | cons i ir =>
        unfold depart_title
        simp only
        constructor
        · intro hcontra
          exact Except.noConfusion hcontra
        · intro s3 h
          cases h
          simp

/-- Spec of `depart_entry`: it never underflows given a frame to pop, and
on success it pops exactly one frame and keeps the counters. -/
theorem depart_entry_spec (cfg : Config) (mc mr : Option Nat) :
    ∀ s2 : TState, 2 ≤ s2.states.length → 1 ≤ s2.stateindent.length →
      depart_entry cfg mc mr s2 ≠ .error .stackUnderflow ∧
      ∀ s3, depart_entry cfg mc mr s2 = .ok s3 →
        s3.states.length + 1 = s2.states.length ∧
        s3.stateindent.length + 1 = s2.stateindent.length ∧
        s3.listCounter = s2.listCounter := by
  intro s2 hs hi
  obtain ⟨sts, sid, lc, sl, tc, tb, tcr, tcs, trs, bd⟩ := s2
  simp only at hs hi
  cases sts with
  | nil => simp at hs
  | cons content srest =>
    cases sid with
    | nil => simp at hi
    | cons i ir =>
      unfold depart_entry
      cases tb with
      | none =>
          dsimp only
          constructor
          · intro hcontra
            exact absurd (Except.error.inj hcontra) (by decide)
          · intro s3 h
            exact Except.noConfusion h
      | some tbl =>
          dsimp only
          by_cases hlt : tcr < tbl.length
          · cases mc <;> cases mr <;>
              (rw [if_pos hlt]
               constructor
               · intro hcontra
                 exact Except.noConfusion hcontra
               · intro s3 h
                 cases h
                 simp)
          · cases mc <;> cases mr <;>
              (rw [if_neg hlt]
               constructor
               · intro hcontra
                 exact absurd (Except.error.inj hcontra) (by decide)
               · intro s3 h
                 exact Except.noConfusion h)

/-- Spec of `visit_section`: no underflow, and on success only the stored
character and the section level change. -/
theorem visit_section_spec (cfg : Config) (st : TState) :
    visit_section cfg st ≠ .error .stackUnderflow ∧
    ∀ s', visit_section cfg st = .ok s' →
      s'.states = st.states ∧ s'.stateindent = st.stateindent ∧
      s'.listCounter = st.listCounter := by
  unfold visit_section
  cases cfg.sectionchars.data[st.sectionlevel]? with
  | none =>
      constructor
      · intro h
        exact absurd (Except.error.inj h) (by decide)
      · intro s' h
        exact Except.noConfusion h
  | some c =>
      constructor
      · intro h
        exact Except.noConfusion h
      · intro s' h
        cases h
        exact ⟨rfl, rfl, rfl⟩

/-- Spec of `visit_table`: no underflow; on success one frame is pushed,
the counters are kept, and a fresh empty matrix is installed. -/
theorem visit_table_spec (st : TState) :
    visit_table st ≠ .error .stackUnderflow ∧
    ∀ s', visit_table st = .ok s' →
      s'.states.length = st.states.length + 1 ∧
      s'.stateindent.length = st.stateindent.length + 1 ∧
      s'.listCounter = st.listCounter := by
  unfold visit_table
  by_cases h : pyTruthyTable st.table = true
  · rw [if_pos h]
    constructor
    · intro hcontra
      exact absurd (Except.error.inj hcontra) (by decide)
    · intro s' hcontra
      exact Except.noConfusion hcontra
  · rw [if_neg h]
    constructor
    · intro hcontra
      exact Except.noConfusion hcontra
    · intro s' heq
      cases heq
      simp [new_state]

/-- Spec of `visit_row`: no underflow; the frames and counters are
untouched. -/
theorem visit_row_spec (st : TState) :
    visit_row st ≠ .error .stackUnderflow ∧
    ∀ s', visit_row st = .ok s' →
      s'.states = st.states ∧ s'.stateindent = st.stateindent ∧
      s'.listCounter = st.listCounter := by
  unfold visit_row
  cases htb : st.table with
  | none =>
      constructor
      · intro h
        exact absurd (Except.error.inj h) (by decide)
      · intro s' h
        exact Except.noConfusion h
  | some tbl =>
      dsimp only
      by_cases h : tbl.length ≤ st.tableCurRow
      · rw [if_pos h]
        constructor
        · intro hcontra
          exact Except.noConfusion hcontra
        · intro s' heq
          cases heq
          exact ⟨rfl, rfl, rfl⟩
      · rw [if_neg h]
        constructor
        · intro hcontra
          exact Except.noConfusion hcontra
        · intro s' heq
          cases heq
          exact ⟨rfl, rfl, rfl⟩

/-- Closing spec of `depart_table`: with at least two frames it cannot
underflow, and on success it pops exactly one frame keeping counters. -/
theorem depart_table_spec (cfg : Config) :
    ∀ s2 : TState, 2 ≤ s2.states.length → 1 ≤ s2.stateindent.length →
      depart_table cfg s2 ≠ .error .stackUnderflow ∧
      ∀ s3, depart_table cfg s2 = .ok s3 →
        s3.states.length + 1 = s2.states.length ∧
        s3.stateindent.length + 1 = s2.stateindent.length ∧
        s3.listCounter = s2.listCounter := by
  intro s2 hs hi
  unfold depart_table
  cases htb : s2.table with
  | none =>
      constructor
      · intro h
        exact absurd (Except.error.inj h) (by decide)
      · intro s3 h
        exact Except.noConfusion h
  | some tbl =>
      dsimp only
      have hadd := add_text_effects (drawTable cfg.nl tbl s2.tableColspan s2.tableRowspan) s2
      have hes := end_state_spec (some [""]) none
        { add_text (drawTable cfg.nl tbl s2.tableColspan s2.tableRowspan) s2 with
            table := none, tableColspan := [], tableRowspan := [] }
        (by simp only; rw [hadd.1]; omega)
        (by simp only; rw [hadd.2.1]; omega)
      constructor
      · exact hes.1
      · intro s3 h
        have := hes.2 s3 h
        simp only at this
        refine ⟨?_, ?_, ?_⟩
        · rw [← hadd.1]
          omega
        · rw [← congrArg List.length hadd.2.1]
          omega
        · rw [this.2.2, hadd.2.2.1]

/-- The statement proved about every walk at a given fuel: no state-stack
underflow, and on success the frame counts are restored and the counter
stack is related by `LCrel`. -/
def WalkSpec (cfg : Config) (fuel : Nat) : Prop :=
  ∀ (l : List Node) (parent : Option Node) (st : TState), StackInv st →
    walkabout cfg fuel parent l st ≠ .error .stackUnderflow ∧
    ∀ st', walkabout cfg fuel parent l st = .ok st' → Post st st'

/-- Composing one node's step with the walk of the remaining siblings. -/
theorem bind_cont (cfg : Config) (fuel : Nat) (parent : Option Node)
    (rest : List Node) (ihf : WalkSpec cfg fuel) (st : TState)
    (step : Except RErr TState) (hinv : StackInv st)
    (hstep : step ≠ .error .stackUnderflow ∧
      ∀ s1, step = .ok s1 → Post st s1) :
    (step >>= fun s1 => walkabout cfg fuel parent rest s1) ≠ .error .stackUnderflow ∧
    ∀ st', (step >>= fun s1 => walkabout cfg fuel parent rest s1) = .ok st' →
      Post st st' := by
  cases hs : step with
  | error e =>
      subst hs
      rw [ebind_error]
      constructor
      · exact hstep.1
      · intro st' h
        exact Except.noConfusion h
  | ok s1 =>
      subst hs
      rw [ebind_ok]
      have hpost := hstep.2 s1 rfl
      have hinv1 := Post_inv hinv hpost
      have hrest := ihf rest parent s1 hinv1
      exact ⟨hrest.1, fun st' h => Post_trans hpost (hrest.2 st' h)⟩

/-- Spec of a push/children/close arm: push a frame, walk the children,
close with any one-frame-popping, counter-preserving operation. -/
theorem frame_arm_spec (cfg : Config) (fuel : Nat) (p : Option Node)
    (cs : List Node) (i : Int) (close : TState → Except RErr TState)
    (st : TState) (ihf : WalkSpec cfg fuel) (hinv : StackInv st)
    (hclose : ∀ s2 : TState, 2 ≤ s2.states.length → 1 ≤ s2.stateindent.length →
      close s2 ≠ .error .stackUnderflow ∧
      ∀ s3, close s2 = .ok s3 →
        s3.states.length + 1 = s2.states.length ∧
        s3.stateindent.length + 1 = s2.stateindent.length ∧
        s3.listCounter = s2.listCounter) :
    (walkabout cfg fuel p cs (new_state i st) >>= close) ≠ .error .stackUnderflow ∧
    ∀ s', (walkabout cfg fuel p cs (new_state i st) >>= close) = .ok s' →
      Post st s' := by
  have hinv1 : StackInv (new_state i st) := by
    obtain ⟨h1, h2, h3⟩ := hinv
    refine ⟨?_, ?_, h3⟩ <;> simp [new_state] <;> omega
  have hch := ihf cs p (new_state i st) hinv1
  cases hw : walkabout cfg fuel p cs (new_state i st) with
  | error e =>
      rw [ebind_error]
      constructor
      · intro h
        exact hch.1 (hw.trans h)
      · intro s' h
        exact Except.noConfusion h
  | ok s2 =>
      rw [ebind_ok]
      have hpost := hch.2 s2 hw
      have hlen2 : s2.states.length = st.states.length + 1 := by
        rw [hpost.1]
        simp [new_state]
      have hilen2 : s2.stateindent.length = st.stateindent.length + 1 := by
        rw [hpost.2.1]
        simp [new_state]
      obtain ⟨hH1, hH2, _⟩ := hinv
      have hcl := hclose s2 (by omega) (by omega)
      constructor
      · exact hcl.1
      · intro s' h
        obtain ⟨e1, e2, e3⟩ := hcl.2 s' h
        refine ⟨by omega, by omega, ?_, ?_⟩
        · have hrel : LCrel (new_state i st).listCounter s2.listCounter := hpost.2.2.1
          rw [e3]
          simpa [new_state] using hrel
        · rw [e3]
          exact hpost.2.2.2

/-- A step that merely adds a raw text satisfies the step spec. -/
theorem ok_add_text_spec (t : String) (st : TState) (hinv : StackInv st) :
    (Except.ok (add_text t st) : Except RErr TState) ≠ .error .stackUnderflow ∧
    ∀ s1, (Except.ok (add_text t st) : Except RErr TState) = .ok s1 → Post st s1 := by
  constructor
  · intro h
    exact Except.noConfusion h
  · intro s1 h
    cases h
    have he := add_text_effects t st
    exact Post_of_eqs he.1 (by rw [he.2.1]) he.2.2.1 hinv.2.2

/-- Branch classes transfer along `classOf` equality. -/
theorem classOf_inv (c' c : Int) (h : classOf c' = classOf c) :
    (c = -1 → c' = -1) ∧ (c = -2 → c' = -2) ∧
    (c ≠ -1 → c ≠ -2 → c' ≠ -1 ∧ c' ≠ -2) := by
  unfold classOf at h
  split_ifs at h <;> refine ⟨?_, ?_, ?_⟩ <;> intro <;> simp_all <;> omega

/-- The closing operation of the document arm: `end_state` followed by the
body assembly, which touches no frame bookkeeping. -/
theorem doc_close_spec (cfg : Config) :
    ∀ s2 : TState, 2 ≤ s2.states.length → 1 ≤ s2.stateindent.length →
      (end_state (some [""]) none s2 >>= fun st3 =>
        (Except.ok { st3 with
          body := cfg.nl.intercalate (bodyLines ((st3.states.getLast?).getD [])) } :
            Except RErr TState)) ≠ .error .stackUnderflow ∧
      ∀ s3, (end_state (some [""]) none s2 >>= fun st3 =>
        (Except.ok { st3 with
          body := cfg.nl.intercalate (bodyLines ((st3.states.getLast?).getD [])) } :
            Except RErr TState)) = .ok s3 →
        s3.states.length + 1 = s2.states.length ∧
        s3.stateindent.length + 1 = s2.stateindent.length ∧
        s3.listCounter = s2.listCounter := by
  intro s2 h2 h1
  have hes := end_state_spec (some [""]) none s2 h2 h1
  cases he : end_state (some [""]) none s2 with
  | error e =>
      rw [ebind_error]
      constructor
      · intro h
        exact hes.1 (he.trans h)
      · intro s3 h
        exact Except.noConfusion h
  | ok s3 =>
      rw [ebind_ok]
      have hsp := hes.2 s3 he
      constructor
      · intro h
        exact Except.noConfusion h
      · intro s4 h
        cases h
        exact hsp

/-- Spec of `visit_list_item`: no underflow, and on success the state is
one of the three dispatch outcomes (bullet frame, definition no-op,
enumerated increment and frame). -/
theorem visit_list_item_spec (cfg : Config) (st : TState) :
    visit_list_item cfg st ≠ .error .stackUnderflow ∧
    ∀ s1, visit_list_item cfg st = .ok s1 →
      ∃ c lrest, st.listCounter = c :: lrest ∧
        ((c = -1 ∧ s1 = new_state 2 { st with listCounter := c :: lrest }) ∨
         (c = -2 ∧ s1 = { st with listCounter := c :: lrest }) ∨
         (c ≠ -1 ∧ c ≠ -2 ∧
          s1 = new_state ((toString (c + 1)).length + cfg.indent)
                 { st with listCounter := (c + 1) :: lrest })) := by
  obtain ⟨sts, sid, lc, sl, tc, tb, tcr, tcs, trs, bd⟩ := st
  unfold visit_list_item
  cases lc with
  | nil =>
      constructor
      · intro h
        exact absurd (Except.error.inj h) (by decide)
      · intro s1 h
        exact Except.noConfusion h
  | cons c lrest =>
      dsimp only
      by_cases hc1 : c = -1
      · have he : list_item_enter cfg.indent (c :: lrest) = (c :: lrest, some 2) := by
          simp only [list_item_enter]
          rw [if_pos hc1]
        rw [he]
        constructor
        · intro h
          exact Except.noConfusion h
        · intro s1 h
          cases h
          exact ⟨c, lrest, rfl, Or.inl ⟨hc1, rfl⟩⟩
      · by_cases hc2 : c = -2
        · have he : list_item_enter cfg.indent (c :: lrest) = (c :: lrest, none) := by
            simp only [list_item_enter]
            rw [if_neg hc1, if_pos hc2]
          rw [he]
          constructor
          · intro h
            exact Except.noConfusion h
          · intro s1 h
            cases h
            exact ⟨c, lrest, rfl, Or.inr (Or.inl ⟨hc2, rfl⟩)⟩
        · have he : list_item_enter cfg.indent (c :: lrest) =
              ((c + 1) :: lrest, some ((toString (c + 1)).length + cfg.indent)) := by
            simp only [list_item_enter]
            rw [if_neg hc1, if_neg hc2]
          rw [he]
          constructor
          · intro h
            exact Except.noConfusion h
          · intro s1 h
            cases h
            exact ⟨c, lrest, rfl, Or.inr (Or.inr ⟨hc1, hc2, rfl⟩)⟩

/-- Spec of `depart_list_item` for bullet and enumerated heads: it closes
one frame keeping the counters; for a definition head it is the identity. -/
theorem depart_list_item_spec (st : TState) (c' : Int) (lr' : List Int)
    (hlc : st.listCounter = c' :: lr') :
    ((c' = -1 ∨ (c' ≠ -1 ∧ c' ≠ -2)) → 2 ≤ st.states.length →
      1 ≤ st.stateindent.length →
      depart_list_item st ≠ .error .stackUnderflow ∧
      ∀ s3, depart_list_item st = .ok s3 →
        s3.states.length + 1 = st.states.length ∧
        s3.stateindent.length + 1 = st.stateindent.length ∧
        s3.listCounter = st.listCounter) ∧
    (c' = -2 → depart_list_item st = .ok st) := by
  constructor
  · intro hcl h2 h1
    have hfirst : ∃ f, list_item_first (c' :: lr') = some f := by
      rcases hcl with h | ⟨ha, hb⟩
      · exact ⟨"* ", by unfold list_item_first; dsimp only; rw [if_pos h]⟩
      · exact ⟨toString c' ++ ". ",
          by unfold list_item_first; dsimp only; rw [if_neg ha, if_neg hb]⟩
    obtain ⟨f, hf⟩ := hfirst
    unfold depart_list_item
    rw [hlc]
    dsimp only
    rw [hf]
    dsimp only
    have hes := end_state_spec none (some f) st h2 h1
    exact ⟨hes.1, fun s3 h =>
      ⟨(hes.2 s3 h).1, (hes.2 s3 h).2.1, ((hes.2 s3 h).2.2).trans hlc⟩⟩
  · intro hc2
    have hf : list_item_first (c' :: lr') = none := by
      unfold list_item_first
      dsimp only
      rw [if_neg (by omega : ¬ c' = -1), if_pos hc2]
    unfold depart_list_item
    rw [hlc]
    dsimp only
    rw [hf]

/-- The branch class of a value that is neither marker. -/
theorem classOf_eq_two (x : Int) (h1 : x ≠ -1) (h2 : x ≠ -2) : classOf x = 2 := by
  unfold classOf
  rw [if_neg h1, if_neg h2]

/-- The master traversal lemma: by induction on the fuel, every walk from a
state satisfying `StackInv` neither underflows the state stack nor
unbalances it, and relates the counter stacks by `LCrel`. -/
theorem walk_master (cfg : Config) : ∀ fuel : Nat, WalkSpec cfg fuel := by
  intro fuel
  induction fuel with
  | zero =>
      intro l parent st hinv
      cases l with
      | nil =>
          constructor
          · intro h
            exact Except.noConfusion h
          · intro st' h
            have h' : Except.ok st = Except.ok st' := h
            cases h'
            exact Post_rfl st hinv.2.2
      | cons n rest =>
          constructor
          · intro h
            have h' : Except.error RErr.fuelOut = Except.error RErr.stackUnderflow := h
            exact absurd (Except.error.inj h') (by decide)
          · intro st' h
            exact Except.noConfusion h
  | succ fuel ih =>
      intro l parent st hinv
      cases l with
      | nil =>
          constructor
          · intro h
            exact Except.noConfusion h
          · intro st' h
            have h' : Except.ok st = Except.ok st' := h
            cases h'
            exact Post_rfl st hinv.2.2
      | cons n rest =>
          simp only [walkabout]
          cases n with
          | text s =>
              exact bind_cont cfg fuel parent rest ih st _ hinv
                (ok_add_text_spec s st hinv)
          | document cs =>
              exact bind_cont cfg fuel parent rest ih st _ hinv
                (frame_arm_spec cfg fuel (some (.document cs)) cs 0 _ st ih hinv
                  (doc_close_spec cfg))
          | «section» cs =>
              have harm : (visit_section cfg st >>= fun s1 =>
                  walkabout cfg fuel (some (.section cs)) cs s1 >>= fun s2 =>
                  (Except.ok { s2 with sectionlevel := s2.sectionlevel - 1 } :
                    Except RErr TState)) ≠ .error .stackUnderflow ∧
                  ∀ s', (visit_section cfg st >>= fun s1 =>
                    walkabout cfg fuel (some (.section cs)) cs s1 >>= fun s2 =>
                    (Except.ok { s2 with sectionlevel := s2.sectionlevel - 1 } :
                      Except RErr TState)) = .ok s' → Post st s' := by
                cases hv : visit_section cfg st with
                | error e =>
                    rw [ebind_error]
                    have hvs := visit_section_spec cfg st
                    rw [hv] at hvs
                    exact ⟨hvs.1, fun s1 h => Except.noConfusion h⟩
                | ok s1 =>
                    rw [ebind_ok]
                    have hvs := (visit_section_spec cfg st).2 s1 hv
                    have hinv1 : StackInv s1 := by
                      obtain ⟨g1, g2, g3⟩ := hinv
                      exact ⟨by rw [hvs.1]; exact g1,
                             by rw [hvs.1, hvs.2.1]; exact g2,
                             by rw [hvs.2.2]; exact g3⟩
                    have hch := ih cs (some (.section cs)) s1 hinv1
                    cases hw : walkabout cfg fuel (some (.section cs)) cs s1 with
                    | error e =>
                        rw [ebind_error]
                        exact ⟨fun h => hch.1 (hw.trans h),
                               fun s2 h => Except.noConfusion h⟩
                    | ok s2 =>
                        rw [ebind_ok]
                        have hpost := hch.2 s2 hw
                        constructor
                        · intro h
                          exact Except.noConfusion h
                        · intro s3 h
                          have h' : Except.ok
                              { s2 with sectionlevel := s2.sectionlevel - 1 } =
                              Except.ok s3 := h
                          cases h'
                          have p1 : Post st s1 :=
                            Post_of_eqs (by rw [hvs.1]) (by rw [hvs.2.1]) hvs.2.2
                              hinv.2.2
                          exact Post_trans p1
                            ⟨hpost.1, hpost.2.1, hpost.2.2.1, hpost.2.2.2⟩
              exact bind_cont cfg fuel parent rest ih st _ hinv harm
          | title cs =>
              exact bind_cont cfg fuel parent rest ih st _ hinv
                (frame_arm_spec cfg fuel (some (.title cs)) cs 0 _ st ih hinv
                  (depart_title_spec (parentIsSection parent)))
          | paragraph cs =>
              exact bind_cont cfg fuel parent rest ih st _ hinv
                (frame_arm_spec cfg fuel (some (.paragraph cs)) cs 0 _ st ih hinv
                  (end_state_spec (some [""]) none))
          | bullet_list cs =>
              have harm : (walkabout cfg fuel (some (.bullet_list cs)) cs
                    { st with listCounter := visit_bullet_list st.listCounter } >>=
                  fun s2 => (Except.ok { s2 with
                    listCounter := depart_bullet_list s2.listCounter } :
                      Except RErr TState)) ≠ .error .stackUnderflow ∧
                  ∀ s', (walkabout cfg fuel (some (.bullet_list cs)) cs
                    { st with listCounter := visit_bullet_list st.listCounter } >>=
                  fun s2 => (Except.ok { s2 with
                    listCounter := depart_bullet_list s2.listCounter } :
                      Except RErr TState)) = .ok s' → Post st s' := by
                have hinv1 : StackInv { st with
                    listCounter := visit_bullet_list st.listCounter } := by
                  obtain ⟨g1, g2, g3⟩ := hinv
                  refine ⟨g1, g2, ?_⟩
                  intro c hc
                  rcases List.mem_cons.mp hc with h | h
                  · rw [h]; decide
                  · exact g3 c h
                have hch := ih cs (some (.bullet_list cs)) _ hinv1
                cases hw : walkabout cfg fuel (some (.bullet_list cs)) cs
                    { st with listCounter := visit_bullet_list st.listCounter } with
                | error e =>
                    rw [ebind_error]
                    exact ⟨fun h => hch.1 (hw.trans h),
                           fun s2 h => Except.noConfusion h⟩
                | ok s2 =>
                    rw [ebind_ok]
                    have hpost := hch.2 s2 hw
                    have hlen : s2.listCounter.length = st.listCounter.length + 1 := by
                      have := hpost.2.2.1.1
                      simpa [visit_bullet_list] using this
                    have hdrop : s2.listCounter.drop 1 = st.listCounter := by
                      have := hpost.2.2.1.2.1
                      simpa [visit_bullet_list] using this
                    cases hl2 : s2.listCounter with
                    | nil => rw [hl2] at hlen; simp at hlen
                    | cons h2 t2 =>
                        have ht2 : t2 = st.listCounter := by
                          rw [hl2] at hdrop
                          simpa using hdrop
                        constructor
                        · intro h
                          exact Except.noConfusion h
                        · intro s3 h
                          have h' : Except.ok { s2 with
                              listCounter := depart_bullet_list (h2 :: t2) } =
                              Except.ok s3 := h
                          cases h'
                          refine ⟨?_, ?_, ?_, ?_⟩
                          · simpa using hpost.1
                          · simpa using hpost.2.1
                          · simp only [depart_bullet_list, List.tail_cons, ht2]
                            exact LCrel_refl _
                          · simp only [depart_bullet_list, List.tail_cons, ht2]
                            exact hinv.2.2
              exact bind_cont cfg fuel parent rest ih st _ hinv harm
          | enumerated_list cs =>
              have harm : (walkabout cfg fuel (some (.enumerated_list cs)) cs
                    { st with listCounter := visit_enumerated_list st.listCounter } >>=
                  fun s2 => (Except.ok { s2 with
                    listCounter := depart_enumerated_list s2.listCounter } :
                      Except RErr TState)) ≠ .error .stackUnderflow ∧
                  ∀ s', (walkabout cfg fuel (some (.enumerated_list cs)) cs
                    { st with listCounter := visit_enumerated_list st.listCounter } >>=
                  fun s2 => (Except.ok { s2 with
                    listCounter := depart_enumerated_list s2.listCounter } :
                      Except RErr TState)) = .ok s' → Post st s' := by
                have hinv1 : StackInv { st with
                    listCounter := visit_enumerated_list st.listCounter } := by
                  obtain ⟨g1, g2, g3⟩ := hinv
                  refine ⟨g1, g2, ?_⟩
                  intro c hc
                  rcases List.mem_cons.mp hc with h | h
                  · rw [h]; decide
                  · exact g3 c h
                have hch := ih cs (some (.enumerated_list cs)) _ hinv1
                cases hw : walkabout cfg fuel (some (.enumerated_list cs)) cs
                    { st with listCounter := visit_enumerated_list st.listCounter } with
                | error e =>
                    rw [ebind_error]
                    exact ⟨fun h => hch.1 (hw.trans h),
                           fun s2 h => Except.noConfusion h⟩
                | ok s2 =>
                    rw [ebind_ok]
                    have hpost := hch.2 s2 hw
                    have hlen : s2.listCounter.length = st.listCounter.length + 1 := by
                      have := hpost.2.2.1.1
                      simpa [visit_enumerated_list] using this
                    have hdrop : s2.listCounter.drop 1 = st.listCounter := by
                      have := hpost.2.2.1.2.1
                      simpa [visit_enumerated_list] using this
                    cases hl2 : s2.listCounter with
                    | nil => rw [hl2] at hlen; simp at hlen
                    | cons h2 t2 =>
                        have ht2 : t2 = st.listCounter := by
                          rw [hl2] at hdrop
                          simpa using hdrop
                        constructor
                        · intro h
                          exact Except.noConfusion h
                        · intro s3 h
                          have h' : Except.ok { s2 with
                              listCounter := depart_enumerated_list (h2 :: t2) } =
                              Except.ok s3 := h
                          cases h'
                          refine ⟨?_, ?_, ?_, ?_⟩
                          · simpa using hpost.1
                          · simpa using hpost.2.1
                          · simp only [depart_enumerated_list, List.tail_cons, ht2]
                            exact LCrel_refl _
                          · simp only [depart_enumerated_list, List.tail_cons, ht2]
                            exact hinv.2.2
              exact bind_cont cfg fuel parent rest ih st _ hinv harm
          | image alt cs =>
              have harm : (Except.ok ((visit_image alt).foldl
                    (fun s t => add_text t s) st) : Except RErr TState) ≠
                    .error .stackUnderflow ∧
                  ∀ s', (Except.ok ((visit_image alt).foldl
                    (fun s t => add_text t s) st) : Except RErr TState) = .ok s' →
                    Post st s' := by
                constructor
                · intro h
                  exact Except.noConfusion h
                · intro s1 h
                  cases h
                  have he := addTexts_effects (visit_image alt) st
                  exact Post_of_eqs he.1 (by rw [he.2.1]) he.2.2 hinv.2.2
              exact bind_cont cfg fuel parent rest ih st _ hinv harm
          | reference refuri nm refid reftitle internal cs =>
              cases refuri with
              | none =>
                  cases nm with
                  | some name' =>
                      exact bind_cont cfg fuel parent rest ih st _ hinv
                        (ok_add_text_spec _ st hinv)
                  | none =>
                      cases refid with
                      | some rid =>
                          exact bind_cont cfg fuel parent rest ih st _ hinv
                            (ih cs (some (.reference none none (some rid)
                              reftitle internal cs)) st hinv)
                      | none =>
                          have harm : (Except.error RErr.notImplemented :
                                Except RErr TState) ≠ .error .stackUnderflow ∧
                              ∀ s', (Except.error RErr.notImplemented :
                                Except RErr TState) = .ok s' → Post st s' := by
                            constructor
                            · intro h
                              exact absurd (Except.error.inj h) (by decide)
                            · intro s1 h
                              exact Except.noConfusion h
                          exact bind_cont cfg fuel parent rest ih st _ hinv harm
              | some uri =>
                  cases internal with
                  | false =>
                      cases nm with
                      | some name' =>
                          exact bind_cont cfg fuel parent rest ih st _ hinv
                            (ok_add_text_spec _ st hinv)
                      | none =>
                          exact bind_cont cfg fuel parent rest ih st _ hinv
                            (ok_add_text_spec _ st hinv)
                  | true =>
                      cases reftitle with
                      | some rt =>
                          exact bind_cont cfg fuel parent rest ih st _ hinv
                            (ok_add_text_spec _ st hinv)
                      | none =>
                          exact bind_cont cfg fuel parent rest ih st _ hinv
                            (ok_add_text_spec _ st hinv)
          | table cs =>
              have harm : (visit_table st >>= fun s1 =>
                  walkabout cfg fuel (some (.table cs)) cs s1 >>= fun s2 =>
                  depart_table cfg s2) ≠ .error .stackUnderflow ∧
                  ∀ s', (visit_table st >>= fun s1 =>
                    walkabout cfg fuel (some (.table cs)) cs s1 >>= fun s2 =>
                    depart_table cfg s2) = .ok s' → Post st s' := by
                cases hv : visit_table st with
                | error e =>
                    rw [ebind_error]
                    have hvs := visit_table_spec st
                    rw [hv] at hvs
                    exact ⟨hvs.1, fun s1 h => Except.noConfusion h⟩
                | ok s1 =>
                    rw [ebind_ok]
                    have hvs := (visit_table_spec st).2 s1 hv
                    obtain ⟨g1, g2, g3⟩ := hinv
                    have hinv1 : StackInv s1 := by
                      refine ⟨by omega, by omega, ?_⟩
                      rw [hvs.2.2]
                      exact g3
                    have hch := ih cs (some (.table cs)) s1 hinv1
                    cases hw : walkabout cfg fuel (some (.table cs)) cs s1 with
                    | error e =>
                        rw [ebind_error]
                        exact ⟨fun h => hch.1 (hw.trans h),
                               fun s2 h => Except.noConfusion h⟩
                    | ok s2 =>
                        rw [ebind_ok]
                        have hpost := hch.2 s2 hw
                        obtain ⟨f1, f2, f3, f4⟩ := hpost
                        have hdt := depart_table_spec cfg s2 (by omega) (by omega)
                        constructor
                        · exact hdt.1
                        · intro s3 h
                          obtain ⟨e1, e2, e3⟩ := hdt.2 s3 h
                          refine ⟨by omega, by omega, ?_, ?_⟩
                          · refine LCrel_trans ?_ (e3 ▸ f3)
                            rw [hvs.2.2]
                            exact LCrel_refl _
                          · rw [e3]
                            exact f4
              exact bind_cont cfg fuel parent rest ih st _ hinv harm
          | row cs =>
              have harm : (visit_row st >>= fun s1 =>
                  walkabout cfg fuel (some (.row cs)) cs s1 >>= fun s2 =>
                  (Except.ok (depart_row s2) : Except RErr TState)) ≠
                    .error .stackUnderflow ∧
                  ∀ s', (visit_row st >>= fun s1 =>
                    walkabout cfg fuel (some (.row cs)) cs s1 >>= fun s2 =>
                    (Except.ok (depart_row s2) : Except RErr TState)) = .ok s' →
                    Post st s' := by
                cases hv : visit_row st with
                | error e =>
                    rw [ebind_error]
                    have hvs := visit_row_spec st
                    rw [hv] at hvs
                    exact ⟨hvs.1, fun s1 h => Except.noConfusion h⟩
                | ok s1 =>
                    rw [ebind_ok]
                    have hvs := (visit_row_spec st).2 s1 hv
                    have hinv1 : StackInv s1 := by
                      obtain ⟨g1, g2, g3⟩ := hinv
                      exact ⟨by rw [hvs.1]; exact g1,
                             by rw [hvs.1, hvs.2.1]; exact g2,
                             by rw [hvs.2.2]; exact g3⟩
                    have hch := ih cs (some (.row cs)) s1 hinv1
                    cases hw : walkabout cfg fuel (some (.row cs)) cs s1 with
                    | error e =>
                        rw [ebind_error]
                        exact ⟨fun h => hch.1 (hw.trans h),
                               fun s2 h => Except.noConfusion h⟩
                    | ok s2 =>
                        rw [ebind_ok]
                        have hpost := hch.2 s2 hw
                        constructor
                        · intro h
                          exact Except.noConfusion h
                        · intro s3 h
                          have h' : Except.ok (depart_row s2) = Except.ok s3 := h
                          cases h'
                          have p1 : Post st s1 :=
                            Post_of_eqs (by rw [hvs.1]) (by rw [hvs.2.1]) hvs.2.2
                              hinv.2.2
                          exact Post_trans p1
                            ⟨hpost.1, hpost.2.1, hpost.2.2.1, hpost.2.2.2⟩
              exact bind_cont cfg fuel parent rest ih st _ hinv harm
          | entry mc mr cs =>
              exact bind_cont cfg fuel parent rest ih st _ hinv
                (frame_arm_spec cfg fuel (some (.entry mc mr cs)) cs 0 _ st ih hinv
                  (depart_entry_spec cfg mc mr))
          | list_item cs =>
              have harm : (visit_list_item cfg st >>= fun s1 =>
                  walkabout cfg fuel (some (.list_item cs)) cs s1 >>= fun s2 =>
                  depart_list_item s2) ≠ .error .stackUnderflow ∧
                  ∀ s', (visit_list_item cfg st >>= fun s1 =>
                    walkabout cfg fuel (some (.list_item cs)) cs s1 >>= fun s2 =>
                    depart_list_item s2) = .ok s' → Post st s' := by
                cases hv : visit_list_item cfg st with
                | error e =>
                    rw [ebind_error]
                    have hvs := (visit_list_item_spec cfg st).1
                    rw [hv] at hvs
                    exact ⟨hvs, fun s1 h => Except.noConfusion h⟩
                | ok s1 =>
                    rw [ebind_ok]
                    obtain ⟨c, lrest, hlc, hcase⟩ :=
                      (visit_list_item_spec cfg st).2 s1 hv
                    have hcmem : (-2 : Int) ≤ c :=
                      hinv.2.2 c (by rw [hlc]; exact List.mem_cons_self _ _)
                    obtain ⟨g1, g2, g3⟩ := hinv
                    rcases hcase with ⟨hc, hs1⟩ | ⟨hc, hs1⟩ | ⟨hc1, hc2, hs1⟩
                    · -- bullet item: a frame of indent 2 is pushed
                      subst hs1
                      have hinv1 : StackInv
                          (new_state 2 { st with listCounter := c :: lrest }) := by
                        refine ⟨by simp [new_state], by simp [new_state]; omega, ?_⟩
                        intro x hx
                        exact g3 x (by rw [hlc]; exact hx)
                      have hch := ih cs (some (.list_item cs)) _ hinv1
                      cases hw : walkabout cfg fuel (some (.list_item cs)) cs
                          (new_state 2 { st with listCounter := c :: lrest }) with
                      | error e =>
                          rw [ebind_error]
                          exact ⟨fun h => hch.1 (hw.trans h),
                                 fun s2 h => Except.noConfusion h⟩
                      | ok s2 =>
                          rw [ebind_ok]
                          obtain ⟨f1, f2, ⟨fl1, fl2, fl3⟩, f4⟩ := hch.2 s2 hw
                          have hs2len : s2.states.length = st.states.length + 1 := by
                            simpa [new_state] using f1
                          have hs2ilen :
                              s2.stateindent.length = st.stateindent.length + 1 := by
                            simpa [new_state] using f2
                          have hl2len : s2.listCounter.length = lrest.length + 1 := by
                            simpa [new_state] using fl1
                          have hl2drop : s2.listCounter.drop 1 = lrest := by
                            simpa [new_state] using fl2
                          cases hl2 : s2.listCounter with
                          | nil => rw [hl2] at hl2len; simp at hl2len
                          | cons c2 t2 =>
                              have ht2 : t2 = lrest := by
                                rw [hl2] at hl2drop
                                simpa using hl2drop
                              have hcls : classOf c2 = classOf c :=
                                fl3 c lrest c2 t2 (by simp [new_state]) hl2
                              have hc2v : c2 = -1 := (classOf_inv c2 c hcls).1 hc
                              have hdl := (depart_list_item_spec s2 c2 t2 hl2).1
                                (Or.inl hc2v) (by omega) (by omega)
                              constructor
                              · exact hdl.1
                              · intro s3 h
                                obtain ⟨e1, e2, e3⟩ := hdl.2 s3 h
                                refine ⟨by omega, by omega, ?_, ?_⟩
                                · rw [e3, hl2, ht2, hlc, hc, hc2v]
                                  exact LCrel_refl _
                                · rw [e3]
                                  exact f4
                    · -- definition item: nothing pushed, nothing closed
                      subst hs1
                      have hinv1 : StackInv { st with listCounter := c :: lrest } := by
                        refine ⟨g1, g2, ?_⟩
                        intro x hx
                        exact g3 x (by rw [hlc]; exact hx)
                      have hch := ih cs (some (.list_item cs)) _ hinv1
                      cases hw : walkabout cfg fuel (some (.list_item cs)) cs
                          { st with listCounter := c :: lrest } with
                      | error e =>
                          rw [ebind_error]
                          exact ⟨fun h => hch.1 (hw.trans h),
                                 fun s2 h => Except.noConfusion h⟩
                      | ok s2 =>
                          rw [ebind_ok]
                          obtain ⟨f1, f2, ⟨fl1, fl2, fl3⟩, f4⟩ := hch.2 s2 hw
                          have hl2len : s2.listCounter.length = lrest.length + 1 := by
                            simpa using fl1
                          have hl2drop : s2.listCounter.drop 1 = lrest := by
                            simpa using fl2
                          cases hl2 : s2.listCounter with
                          | nil => rw [hl2] at hl2len; simp at hl2len
                          | cons c2 t2 =>
                              have ht2 : t2 = lrest := by
                                rw [hl2] at hl2drop
                                simpa using hl2drop
                              have hcls : classOf c2 = classOf c :=
                                fl3 c lrest c2 t2 (by simp) hl2
                              have hc2v : c2 = -2 := (classOf_inv c2 c hcls).2.1 hc
                              have hdl := (depart_list_item_spec s2 c2 t2 hl2).2 hc2v
                              rw [hdl]
                              constructor
                              · intro h
                                exact Except.noConfusion h
                              · intro s3 h
                                have h' : Except.ok s2 = Except.ok s3 := h
                                cases h'
                                refine ⟨by simpa using f1, by simpa using f2, ?_, f4⟩
                                rw [hlc, hl2, ht2, hc, hc2v]
                                exact LCrel_refl _
                    · -- enumerated item: counter bumped, frame pushed
                      subst hs1
                      have hge : (0 : Int) ≤ c := by omega
                      have hinv1 : StackInv (new_state
                          ((toString (c + 1)).length + cfg.indent)
                          { st with listCounter := (c + 1) :: lrest }) := by
                        refine ⟨by simp [new_state], by simp [new_state]; omega, ?_⟩
                        intro x hx
                        simp only [new_state] at hx
                        rcases List.mem_cons.mp hx with h | h
                        · omega
                        · exact g3 x (by rw [hlc]; exact List.mem_cons_of_mem _ h)
                      have hch := ih cs (some (.list_item cs)) _ hinv1
                      cases hw : walkabout cfg fuel (some (.list_item cs)) cs
                          (new_state ((toString (c + 1)).length + cfg.indent)
                            { st with listCounter := (c + 1) :: lrest }) with
                      | error e =>
                          rw [ebind_error]
                          exact ⟨fun h => hch.1 (hw.trans h),
                                 fun s2 h => Except.noConfusion h⟩
                      | ok s2 =>
                          rw [ebind_ok]
                          obtain ⟨f1, f2, ⟨fl1, fl2, fl3⟩, f4⟩ := hch.2 s2 hw
                          have hs2len : s2.states.length = st.states.length + 1 := by
                            simpa [new_state] using f1
                          have hs2ilen :
                              s2.stateindent.length = st.stateindent.length + 1 := by
                            simpa [new_state] using f2
                          have hl2len : s2.listCounter.length = lrest.length + 1 := by
                            simpa [new_state] using fl1
                          have hl2drop : s2.listCounter.drop 1 = lrest := by
                            simpa [new_state] using fl2
                          cases hl2 : s2.listCounter with
                          | nil => rw [hl2] at hl2len; simp at hl2len
                          | cons c2 t2 =>
                              have ht2 : t2 = lrest := by
                                rw [hl2] at hl2drop
                                simpa using hl2drop
                              have hcls : classOf c2 = classOf (c + 1) :=
                                fl3 (c + 1) lrest c2 t2 (by simp [new_state]) hl2
                              have hc2v : c2 ≠ -1 ∧ c2 ≠ -2 :=
                                (classOf_inv c2 (c + 1) hcls).2.2
                                  (by omega) (by omega)
                              have hdl := (depart_list_item_spec s2 c2 t2 hl2).1
                                (Or.inr hc2v) (by omega) (by omega)
                              constructor
                              · exact hdl.1
                              · intro s3 h
                                obtain ⟨e1, e2, e3⟩ := hdl.2 s3 h
                                refine ⟨by omega, by omega, ?_, ?_⟩
                                · rw [e3, hl2, ht2, hlc]
                                  refine ⟨by simp, by simp, ?_⟩
                                  intro x rest' x' rest'' hxx hyy
                                  cases hxx
                                  cases hyy
                                  rw [classOf_eq_two _ hc2v.1 hc2v.2,
                                      classOf_eq_two _ hc1 hc2]
                                · rw [e3]
                                  exact f4
              exact bind_cont cfg fuel parent rest ih st _ hinv harm

/-- Claim C9, confirmed.  During every traversal from a state whose stack
holds at least one frame (with indents in lock step and well-formed
counters), the walk never underflows the state stack — so the stack holds
at least one frame at all times, every pop having a matching push — and on
completion the frame count is exactly restored; in particular a document
walked from the freshly initialised state ends, after `depart_document`,
with exactly the root frame remaining. -/
theorem C9_stack_invariant :
    (∀ (cfg : Config) (fuel : Nat) (l : List Node) (parent : Option Node)
        (st : TState),
        1 ≤ st.states.length → st.states.length = st.stateindent.length →
        (∀ c ∈ st.listCounter, (-2 : Int) ≤ c) →
        walkabout cfg fuel parent l st ≠ .error .stackUnderflow ∧
        ∀ st', walkabout cfg fuel parent l st = .ok st' →
          st'.states.length = st.states.length ∧
          st'.stateindent.length = st.stateindent.length) ∧
    (∀ (cfg : Config) (fuel : Nat) (doc : Node) (st' : TState),
        walkabout cfg fuel none [doc] initState = .ok st' →
        st'.states.length = 1) := by
  constructor
  · intro cfg fuel l parent st h1 h2 h3
    have h := walk_master cfg fuel l parent st ⟨h1, h2, h3⟩
    exact ⟨h.1, fun st' hok => ⟨(h.2 st' hok).1, (h.2 st' hok).2.1⟩⟩
  · intro cfg fuel doc st' hok
    have hinv : StackInv initState := by
      refine ⟨by simp [initState], by simp [initState], ?_⟩
      intro c hc
      simp [initState] at hc
    have h := walk_master cfg fuel [doc] none initState hinv
    have hlen := (h.2 st' hok).1
    simpa [initState] using hlen

/-- Witness for `C9_stack_invariant` at concrete inputs: a single text node
never underflows from the initial state, and a rendered one-paragraph
document ends with exactly the root frame. -/
theorem C9_stack_invariant_witness :
    walkabout defaultConfig 5 none [Node.text "x"] initState ≠
      .error .stackUnderflow ∧
    (walkabout defaultConfig 9 none
        [Node.document [Node.paragraph [Node.text "x"]]] initState).map
      (fun s => s.states.length) = .ok 1 := by
  constructor
  · exact (C9_stack_invariant.1 defaultConfig 5 [Node.text "x"] none initState
      (by simp [initState]) (by simp [initState])
      (by intro c hc; simp [initState] at hc)).1
  · have hisok : (walkabout defaultConfig 9 none
        [Node.document [Node.paragraph [Node.text "x"]]] initState).isOk = true := rfl
    cases hok : walkabout defaultConfig 9 none
        [Node.document [Node.paragraph [Node.text "x"]]] initState with
    | error e =>
        rw [hok] at hisok
        exact absurd hisok (by simp [Except.isOk, Except.toBool])
    | ok stf =>
        have h1 := C9_stack_invariant.2 defaultConfig 9
          (Node.document [Node.paragraph [Node.text "x"]]) stf hok
        simp [Except.map, h1]

/-- Running `n` enumerated items from a non-negative counter `c` emits the
prefixes `c+1 .` through `c+n .`, pushes frames sized to each counter's
decimal width plus the base indent, and leaves the counter at `c + n`
without touching the outer stack. -/
theorem runEnum_general (ind : Int) :
    ∀ (n : Nat) (c : Int) (rest : List Int), 0 ≤ c →
      runEnumItems ind n (c :: rest) =
        ((c + (n : Int)) :: rest,
         (List.range n).map fun (i : Nat) =>
           some ((toString (c + (i : Int) + 1)).length + ind),
         (List.range n).map fun (i : Nat) =>
           some (toString (c + (i : Int) + 1) ++ ". ")) := by
  intro n
  induction n with
  | zero =>
      intro c rest hc
      simp [runEnumItems]
  | succ n ih =>
      intro c rest hc
      have he : list_item_enter ind (c :: rest) =
          ((c + 1) :: rest, some ((toString (c + 1)).length + ind)) := by
        simp only [list_item_enter]
        rw [if_neg (by omega), if_neg (by omega)]
      have hf : list_item_first ((c + 1) :: rest) =
          some (toString (c + 1) ++ ". ") := by
        unfold list_item_first
        dsimp only
        rw [if_neg (by omega), if_neg (by omega)]
      simp only [runEnumItems, he, hf]
      rw [ih (c + 1) rest (by omega)]
      simp only [Prod.mk.injEq]
      refine ⟨?_, ?_, ?_⟩
      · push_cast
        ring_nf
      · rw [List.range_succ_eq_map]
        simp only [List.map_cons, List.map_map, List.cons.injEq]
        refine ⟨by norm_num, ?_⟩
        refine List.map_congr_left fun i _ => ?_
        simp only [Function.comp]
        have hidx : c + 1 + (i : Int) + 1 = c + (((i : Int) + 1)) + 1 := by ring
        rw [hidx]
        norm_num
      · rw [List.range_succ_eq_map]
        simp only [List.map_cons, List.map_map, List.cons.injEq]
        refine ⟨by norm_num, ?_⟩
        refine List.map_congr_left fun i _ => ?_
        simp only [Function.comp]
        have hidx : c + 1 + (i : Int) + 1 = c + (((i : Int) + 1)) + 1 := by ring
        rw [hidx]
        norm_num

/-- Claim C8, confirmed.  Part one: entering an enumerated list pushes a
fresh counter 0 at any nesting position (over any outer stack `rest`), and
running its `n` items emits exactly the prefixes `1. ` through `n. ` in
order, each item's frame indent being the decimal width of its counter plus
the configured base indent; departing the list pops the counter, restoring
the outer stack.  Part two: a complete walk of an enumerated-list node
leaves the whole counter stack exactly as it was — nested lists do not leak
into outer ones. -/
theorem C8_enumerated_numbering :
    (∀ (ind : Int) (n : Nat) (rest : List Int),
        runEnumItems ind n (visit_enumerated_list rest) =
          (((n : Int)) :: rest,
           (List.range n).map fun (i : Nat) =>
             some ((toString ((i : Int) + 1)).length + ind),
           (List.range n).map fun (i : Nat) =>
             some (toString ((i : Int) + 1) ++ ". ")) ∧
        depart_enumerated_list (((n : Int)) :: rest) = rest) ∧
    (∀ (cfg : Config) (fuel : Nat) (parent : Option Node) (cs : List Node)
        (st : TState),
        1 ≤ st.states.length → st.states.length = st.stateindent.length →
        (∀ c ∈ st.listCounter, (-2 : Int) ≤ c) →
        ∀ st', walkabout cfg fuel parent [.enumerated_list cs] st = .ok st' →
          st'.listCounter = st.listCounter) := by
  constructor
  · intro ind n rest
    constructor
    · have h := runEnum_general ind n 0 rest (by omega)
      unfold visit_enumerated_list
      rw [h]
      simp only [Prod.mk.injEq]
      refine ⟨by norm_num, ?_, ?_⟩
      · refine List.map_congr_left fun i _ => ?_
        norm_num
      · refine List.map_congr_left fun i _ => ?_
        norm_num
    · rfl
  · intro cfg fuel parent cs st h1 h2 h3 st' hok
    cases fuel with
    | zero =>
        have h' : Except.error RErr.fuelOut = Except.ok st' := hok
        exact Except.noConfusion h'
    | succ fuel =>
        have hok' : ((walkabout cfg fuel (some (.enumerated_list cs)) cs
              { st with listCounter := visit_enumerated_list st.listCounter } >>=
            fun s2 => (Except.ok { s2 with
              listCounter := depart_enumerated_list s2.listCounter } :
                Except RErr TState)) >>=
            fun s => walkabout cfg fuel parent [] s) = .ok st' := hok
        have hinv1 : StackInv { st with
            listCounter := visit_enumerated_list st.listCounter } := by
          refine ⟨h1, h2, ?_⟩
          intro c hc
          rcases List.mem_cons.mp hc with h | h
          · rw [h]; decide
          · exact h3 c h
        cases hw : walkabout cfg fuel (some (.enumerated_list cs)) cs
            { st with listCounter := visit_enumerated_list st.listCounter } with
        | error e =>
            rw [hw, ebind_error, ebind_error] at hok'
            exact Except.noConfusion hok'
        | ok s2 =>
            rw [hw, ebind_ok, ebind_ok] at hok'
            have hpost := (walk_master cfg fuel cs (some (.enumerated_list cs))
              _ hinv1).2 s2 hw
            have hlen : s2.listCounter.length = st.listCounter.length + 1 := by
              have := hpost.2.2.1.1
              simpa [visit_enumerated_list] using this
            have hdrop : s2.listCounter.drop 1 = st.listCounter := by
              have := hpost.2.2.1.2.1
              simpa [visit_enumerated_list] using this
            simp only [walkabout] at hok'
            cases hok'
            cases hl2 : s2.listCounter with
            | nil => rw [hl2] at hlen; simp at hlen
            | cons c2 t2 =>
                simp only [hl2, depart_enumerated_list, List.tail_cons]
                rw [hl2] at hdrop
                simpa using hdrop

/-- Witness for `C8_enumerated_numbering` at concrete inputs: three items
at base indent 3 over an outer bullet marker, and a concrete enumerated
list of two items whose walk restores the empty counter stack. -/
theorem C8_enumerated_numbering_witness :
    (runEnumItems 3 3 (visit_enumerated_list [-1]) =
      ((3 : Int) :: [-1],
       [some (4 : Int), some 4, some 4],
       [some "1. ", some "2. ", some "3. "]) ∧
     depart_enumerated_list ((3 : Int) :: [-1]) = [-1]) ∧
    (walkabout defaultConfig 9 none
        [.enumerated_list [.list_item [.paragraph [.text "a"]],
                           .list_item [.paragraph [.text "b"]]]] initState).map
      (fun s => s.listCounter) = .ok ([] : List Int) := by
  constructor
  · have h := C8_enumerated_numbering.1 3 3 [-1]
    refine ⟨?_, h.2⟩
    rw [h.1]
    decide
  · have hisok : (walkabout defaultConfig 9 none
        [.enumerated_list [.list_item [.paragraph [.text "a"]],
                           .list_item [.paragraph [.text "b"]]]] initState).isOk =
        true := rfl
    cases hok : walkabout defaultConfig 9 none
        [.enumerated_list [.list_item [.paragraph [.text "a"]],
                           .list_item [.paragraph [.text "b"]]]] initState with
    | error e =>
        rw [hok] at hisok
        exact absurd hisok (by simp [Except.isOk, Except.toBool])
    | ok stf =>
        have h2 := C8_enumerated_numbering.2 defaultConfig 9 none
          [.list_item [.paragraph [.text "a"]], .list_item [.paragraph [.text "b"]]]
          initState (by simp [initState]) (by simp [initState])
          (by intro c hc; simp [initState] at hc) stf hok
        simp [Except.map, h2, initState]
